import Mathlib

/-!
Verification of the AABB aggregation core of `BoundingBoxSelection.py`
(the "Bounding Box Outline Selected" overlay add-on).

The embedding below translates, line by line, the data and control flow of
`_collect_aabbs_cached`, `_selected_key`, `_xform_key`, `_prefs_sig`,
`_interval` and `_build_batches` from the Python source.  Floating point
coordinates and clock values are modelled as rationals; the `inf` / `-inf`
sentinels of the accumulator become an explicit extended-rational type `XQ`.
The per-frame entry point `_collect_aabbs_cached` is modelled as an explicit
state transformer over the module-level cache state (`_cache`, `_dg_version`,
`_last_update_time`).
-/

namespace BBSel

/-- A 3-component vector of rational coordinates (models `mathutils.Vector`
restricted to the xyz components used by the source). -/
structure Vec3 where
  x : ℚ
  y : ℚ
  z : ℚ
  deriving DecidableEq

/-- The 3x4 part of a world matrix actually read by the source
(`mw[0][0..3]`, `mw[1][0..3]`, `mw[2][0..3]`). -/
structure Mat4 where
  m00 : ℚ
  m01 : ℚ
  m02 : ℚ
  m03 : ℚ
  m10 : ℚ
  m11 : ℚ
  m12 : ℚ
  m13 : ℚ
  m20 : ℚ
  m21 : ℚ
  m22 : ℚ
  m23 : ℚ
  deriving DecidableEq

/-- `mw @ Vector(c)` for a 3d point `c` (promoted with w = 1), keeping the
xyz components, exactly as `w = mw @ Vector(c); w.x, w.y, w.z`. -/
def Mat4.apply (m : Mat4) (v : Vec3) : Vec3 :=
  ⟨m.m00 * v.x + m.m01 * v.y + m.m02 * v.z + m.m03,
   m.m10 * v.x + m.m11 * v.y + m.m12 * v.z + m.m13,
   m.m20 * v.x + m.m21 * v.y + m.m22 * v.z + m.m23⟩

/-- Extended rationals: the accumulator entries start at `inf` / `-inf`
(`from math import inf`) and become finite once a corner is folded. -/
inductive XQ where
  | negInf : XQ
  | fin : ℚ → XQ
  | posInf : XQ
  deriving DecidableEq

/-- `x < m` for a float `x` against a possibly-infinite accumulator entry. -/
def qltX (x : ℚ) (m : XQ) : Bool :=
  match m with
  | XQ.negInf => false
  | XQ.fin q => decide (x < q)
  | XQ.posInf => true

/-- `x > m` for a float `x` against a possibly-infinite accumulator entry. -/
def qgtX (x : ℚ) (m : XQ) : Bool :=
  match m with
  | XQ.negInf => true
  | XQ.fin q => decide (q < x)
  | XQ.posInf => false

/-- Order on extended rationals (used only to state properties). -/
def xle : XQ → XQ → Bool
  | XQ.negInf, _ => true
  | XQ.fin _, XQ.negInf => false
  | XQ.fin a, XQ.fin b => decide (a ≤ b)
  | XQ.fin _, XQ.posInf => true
  | XQ.posInf, XQ.posInf => true
  | XQ.posInf, XQ.fin _ => false
  | XQ.posInf, XQ.negInf => false

/-- A 3-component vector of extended rationals: one accumulator corner
(`[inf, inf, inf]` / `[-inf, -inf, -inf]` in the source). -/
structure XVec3 where
  x : XQ
  y : XQ
  z : XQ
  deriving DecidableEq

/-- `v` lies componentwise between `mn` and `mx`. -/
def containsB (mn mx : XVec3) (v : Vec3) : Bool :=
  xle mn.x (XQ.fin v.x) && xle (XQ.fin v.x) mx.x &&
  (xle mn.y (XQ.fin v.y) && xle (XQ.fin v.y) mx.y) &&
  (xle mn.z (XQ.fin v.z) && xle (XQ.fin v.z) mx.z)

/-- `(mn', mx')` is at least as wide as `(mn, mx)` componentwise. -/
def widens (mn mx mn' mx' : XVec3) : Prop :=
  xle mn'.x mn.x = true ∧ xle mn'.y mn.y = true ∧ xle mn'.z mn.z = true ∧
  xle mx.x mx'.x = true ∧ xle mx.y mx'.y = true ∧ xle mx.z mx'.z = true

/-- An evaluated scene object as far as the source reads it: its stable
pointer (`as_pointer()`), its world matrix and its `bound_box` (which the
source probes with `getattr(..., "bound_box", None)`). -/
structure Obj where
  ptr : Nat
  matrix_world : Mat4
  bound_box : Option (List Vec3)
  deriving DecidableEq

/-- One entry of `depsgraph.object_instances`, with exactly the attributes
the loop in `_collect_aabbs_cached` reads. -/
structure Instance where
  object : Option Obj
  instance_object : Option Obj
  is_instance : Bool
  parent : Option Obj
  instance_parent : Option Obj
  matrix_world : Mat4
  deriving DecidableEq

/-- `base = inst.object or getattr(inst, "instance_object", None)`. -/
def instBase (inst : Instance) : Option Obj :=
  match inst.object with
  | some b => some b
  | none => inst.instance_object

/-- `owner = inst.parent if inst.is_instance else inst.object` followed by
`if owner is None: owner = getattr(inst, "instance_parent", None)`. -/
def instOwner (inst : Instance) : Option Obj :=
  match (if inst.is_instance then inst.parent else inst.object) with
  | some w => some w
  | none => inst.instance_parent

/-- The pointer of the owner an instance is attributed to, defined (like the
loop) only when the instance has a base object at all. -/
def instOwnerPtr (inst : Instance) : Option Nat :=
  match instBase inst with
  | none => none
  | some _ =>
    match instOwner inst with
    | none => none
    | some o => some o.ptr

/-- The 8 local `bound_box` corners of the instance's base, transformed by
the instance's world matrix (empty when there is no base or no box). -/
def worldCorners (inst : Instance) : List Vec3 :=
  match instBase inst with
  | none => []
  | some base =>
    match base.bound_box with
    | none => []
    | some bbl => bbl.map inst.matrix_world.apply

/-- `accuracy_mode` enum of the add-on preferences. -/
inductive Mode where
  | AUTO : Mode
  | ACCURATE : Mode
  | SAMPLED : Mode
  deriving DecidableEq

/-- The add-on preference fields read by the core (`refresh_fps` is the
integer value of the string enum property). -/
structure Prefs where
  accuracy_mode : Mode
  auto_threshold : Nat
  sample_limit_per_owner : Nat
  refresh_fps : Nat
  deriving DecidableEq

/-- The `(mode, threshold, limit)` settings signature. -/
abbrev PrefsSig := Mode × Nat × Nat

/-- `_prefs_sig(prefs)`: defaults `('AUTO', 10000, 256)` when preferences
are unavailable. -/
def _prefs_sig : Option Prefs → PrefsSig
  | none => (Mode.AUTO, 10000, 256)
  | some p => (p.accuracy_mode, p.auto_threshold, p.sample_limit_per_owner)

/-- `_interval()`: `1.0 / fps` with `fps` clamped into `[1, 1000]`,
defaulting to 30 fps when preferences are unavailable. -/
def _interval (p : Option Prefs) : ℚ :=
  match p with
  | none => 1 / 30
  | some p => 1 / ((max 1 (min 1000 p.refresh_fps) : Nat) : ℚ)

/-- `_selected_key(selected_set)`: the sorted tuple of owner pointers. -/
def _selected_key (selected : List Obj) : List Nat :=
  List.insertionSort (· ≤ ·) (selected.map Obj.ptr)

/-- Python `int(v)` truncation toward zero applied to a rational. -/
def pyint (q : ℚ) : Int :=
  Int.tdiv q.num (q.den : Int)

/-- The 12 quantized matrix components of `_xform_key` for one owner:
`int(v * 1e6)` over rows `0..2` columns `0..2` then the translations. -/
def quantMat (mw : Mat4) : List Int :=
  [pyint (mw.m00 * 1000000), pyint (mw.m01 * 1000000), pyint (mw.m02 * 1000000),
   pyint (mw.m10 * 1000000), pyint (mw.m11 * 1000000), pyint (mw.m12 * 1000000),
   pyint (mw.m20 * 1000000), pyint (mw.m21 * 1000000), pyint (mw.m22 * 1000000),
   pyint (mw.m03 * 1000000), pyint (mw.m13 * 1000000), pyint (mw.m23 * 1000000)]

/-- `_xform_key(selected_set)`: owners sorted by pointer, each contributing
its pointer plus the quantized matrix snapshot. -/
def _xform_key (selected : List Obj) : List (Nat × List Int) :=
  (List.insertionSort (fun a b => a.ptr ≤ b.ptr) selected).map
    (fun ob => (ob.ptr, quantMat ob.matrix_world))

/-- Per-owner accumulator record
`{"mn": [inf]*3, "mx": [-inf]*3, "count": 0, "done": False}`. -/
structure Acc where
  mn : XVec3
  mx : XVec3
  count : Nat
  done : Bool
  deriving DecidableEq

/-- The freshly initialized accumulator of one owner. -/
def initAcc : Acc :=
  ⟨⟨XQ.posInf, XQ.posInf, XQ.posInf⟩, ⟨XQ.negInf, XQ.negInf, XQ.negInf⟩, 0, false⟩

/-- Dictionary lookup `owners.get(owner)` on the pointer key. -/
def lookupA (k : Nat) : List (Nat × Acc) → Option Acc
  | [] => none
  | (k', a) :: rest => if k' = k then some a else lookupA k rest

/-- In-place mutation of the entry at key `k` (first occurrence). -/
def updAssoc (k : Nat) (f : Acc → Acc) : List (Nat × Acc) → List (Nat × Acc)
  | [] => []
  | (k', a) :: rest =>
    if k' = k then (k', f a) :: rest else (k', a) :: updAssoc k f rest

/-- One corner update: `if x < mn[i]: mn[i] = x`. -/
def updMin (m : XQ) (x : ℚ) : XQ :=
  if qltX x m then XQ.fin x else m

/-- One corner update: `if x > mx[i]: mx[i] = x`. -/
def updMax (m : XQ) (x : ℚ) : XQ :=
  if qgtX x m then XQ.fin x else m

/-- Folding one world-space corner into the running min/max. -/
def foldCorner (mn mx : XVec3) (w : Vec3) : XVec3 × XVec3 :=
  (⟨updMin mn.x w.x, updMin mn.y w.y, updMin mn.z w.z⟩,
   ⟨updMax mx.x w.x, updMax mx.y w.y, updMax mx.z w.z⟩)

/-- `for c in bb: w = mw @ Vector(c); <extend mn, mx>`. -/
def foldCorners (mw : Mat4) (bbl : List Vec3) (mn mx : XVec3) : XVec3 × XVec3 :=
  bbl.foldl (fun p c => foldCorner p.1 p.2 (mw.apply c)) (mn, mx)

/-- The mutable state of one enumeration pass: the `sampling` flag, the
`total_hits` and `owners_done` counters, and the per-owner accumulators. -/
structure PassState where
  sampling : Bool
  total_hits : Nat
  owners_done : Nat
  owners : List (Nat × Acc)
  deriving DecidableEq

/-- Outcome of one loop iteration: keep iterating or `break`. -/
inductive StepOut where
  | cont : PassState → StepOut
  | halt : PassState → StepOut
  deriving DecidableEq

/-- The state carried out of a step regardless of continuing or breaking. -/
def StepOut.state : StepOut → PassState
  | StepOut.cont s => s
  | StepOut.halt s => s

/-- The body of `for inst in depsgraph.object_instances`, translated branch
by branch from the source (lines 297-340). -/
def passStep (mode : Mode) (auto_threshold sample_limit owners_needed : Nat)
    (inst : Instance) (s : PassState) : StepOut :=
  match instBase inst with
  | none => StepOut.cont s
  | some base =>
    match instOwner inst with
    | none => StepOut.cont s
    | some owner =>
      match lookupA owner.ptr s.owners with
      | none => StepOut.cont s
      | some st =>
        let sampling : Bool :=
          if mode = Mode.AUTO ∧ s.sampling = false ∧ auto_threshold ≤ s.total_hits then
            true
          else s.sampling
        if sampling = true ∧ st.done = true then
          if owners_needed ≤ s.owners_done then
            StepOut.halt { s with sampling := sampling }
          else
            StepOut.cont { s with sampling := sampling }
        else
          match base.bound_box with
          | none => StepOut.cont { s with sampling := sampling }
          | some bbl =>
            if bbl = [] then StepOut.cont { s with sampling := sampling }
            else
              let mn := (foldCorners inst.matrix_world bbl st.mn st.mx).1
              let mx := (foldCorners inst.matrix_world bbl st.mn st.mx).2
              if sampling = true ∧ sample_limit ≤ st.count + 1 then
                let s' : PassState :=
                  ⟨sampling, s.total_hits + 1, s.owners_done + 1,
                   updAssoc owner.ptr (fun _ => ⟨mn, mx, st.count + 1, true⟩) s.owners⟩
                if owners_needed ≤ s.owners_done + 1 then StepOut.halt s'
                else StepOut.cont s'
              else
                StepOut.cont
                  ⟨sampling, s.total_hits + 1, s.owners_done,
                   updAssoc owner.ptr (fun _ => ⟨mn, mx, st.count + 1, st.done⟩) s.owners⟩

/-- The full enumeration loop; returns the final state together with the
instances left unvisited by an early `break`. -/
def passLoop (mode : Mode) (auto_threshold sample_limit owners_needed : Nat) :
    List Instance → PassState → PassState × List Instance
  | [], s => (s, [])
  | inst :: rest, s =>
    match passStep mode auto_threshold sample_limit owners_needed inst s with
    | StepOut.cont s' => passLoop mode auto_threshold sample_limit owners_needed rest s'
    | StepOut.halt s' => (s', rest)

/-- `any(v == inf for v in mn) or any(v == -inf for v in mx)`. -/
def excludedAcc (st : Acc) : Bool :=
  decide (st.mn.x = XQ.posInf) || decide (st.mn.y = XQ.posInf) ||
  decide (st.mn.z = XQ.posInf) || decide (st.mx.x = XQ.negInf) ||
  decide (st.mx.y = XQ.negInf) || decide (st.mx.z = XQ.negInf)

/-- Building the `result` dict: owners whose min/max were never extended
are skipped, the rest are emitted keyed by their pointer. -/
def finalize : List (Nat × Acc) → List (Nat × (XVec3 × XVec3))
  | [] => []
  | (ptr, st) :: rest =>
    if excludedAcc st then finalize rest else (ptr, (st.mn, st.mx)) :: finalize rest

/-- The `owners` dict created at the start of a recompute pass. -/
def initOwners (selected : List Obj) : List (Nat × Acc) :=
  selected.map (fun o => (o.ptr, initAcc))

/-- The initial loop state: `sampling = (mode == 'SAMPLED')`, both counters
zero, one fresh accumulator per selected owner. -/
def initPass (psig : PrefsSig) (selected : List Obj) : PassState :=
  ⟨decide (psig.1 = Mode.SAMPLED), 0, 0, initOwners selected⟩

/-- The whole recompute pass of `_collect_aabbs_cached` (lines 287-347):
enumerate, accumulate, finalize. -/
def recompute (psig : PrefsSig) (selected : List Obj) (insts : List Instance) :
    List (Nat × (XVec3 × XVec3)) :=
  finalize
    (passLoop psig.1 psig.2.1 psig.2.2 selected.length insts (initPass psig selected)).1.owners

/-- The module-level `_cache` dict. -/
structure Cache where
  dg_version : Int
  selected_key : Option (List Nat)
  xform_key : Option (List (Nat × List Int))
  prefs_sig : Option PrefsSig
  aabbs : List (Nat × (XVec3 × XVec3))
  deriving DecidableEq

/-- The module-level mutable state touched by `_collect_aabbs_cached`:
the cache, the depsgraph version counter, the throttling timestamp. -/
structure GState where
  cache : Cache
  dg_version : Int
  last_update_time : ℚ
  deriving DecidableEq

/-- The per-call inputs of `_collect_aabbs_cached`: the context mode string,
the selected-and-visible evaluated objects, the depsgraph instance list, the
current preferences and the current monotonic clock value. -/
structure CollectInput where
  mode : String
  selected_eval : List Obj
  instances : List Instance
  prefs : Option Prefs
  now : ℚ

/-- `needs_recompute = changed_dg or changed_sel or changed_xf or changed_pref`. -/
def needs_recompute (g : GState) (inp : CollectInput) : Bool :=
  decide (g.cache.dg_version ≠ g.dg_version) ||
  decide (g.cache.selected_key ≠ some (_selected_key inp.selected_eval)) ||
  decide (g.cache.xform_key ≠ some (_xform_key inp.selected_eval)) ||
  decide (g.cache.prefs_sig ≠ some (_prefs_sig inp.prefs))

/-- `_collect_aabbs_cached(context, depsgraph)` as a state transformer:
returns the AABB map together with the updated module-level state. -/
def _collect_aabbs_cached (g : GState) (inp : CollectInput) :
    List (Nat × (XVec3 × XVec3)) × GState :=
  if inp.mode.startsWith "EDIT" then ([], g)
  else if inp.selected_eval = [] then ([], g)
  else if needs_recompute g inp = false ∨
      inp.now - g.last_update_time < _interval inp.prefs then
    (g.cache.aabbs, g)
  else
    let result := recompute (_prefs_sig inp.prefs) inp.selected_eval inp.instances
    (result,
     { cache :=
        { dg_version := g.dg_version,
          selected_key := some (_selected_key inp.selected_eval),
          xform_key := some (_xform_key inp.selected_eval),
          prefs_sig := some (_prefs_sig inp.prefs),
          aabbs := result },
       dg_version := g.dg_version,
       last_update_time := inp.now })

/-- The static `_BOX_EDGES` topology. -/
def _BOX_EDGES : List (Nat × Nat) :=
  [(0, 1), (1, 2), (2, 3), (3, 0), (4, 5), (5, 6), (6, 7), (7, 4),
   (0, 4), (1, 5), (2, 6), (3, 7)]

/-- One vertex/index buffer pair under construction. -/
structure Batch where
  pos : List Vec3
  idx : List (Nat × Nat)
  deriving DecidableEq

/-- The 8 corner vertices appended by `add_box` for one AABB. -/
def boxVerts (mn mx : Vec3) : List Vec3 :=
  [⟨mn.x, mn.y, mn.z⟩, ⟨mx.x, mn.y, mn.z⟩, ⟨mx.x, mx.y, mn.z⟩, ⟨mn.x, mx.y, mn.z⟩,
   ⟨mn.x, mn.y, mx.z⟩, ⟨mx.x, mn.y, mx.z⟩, ⟨mx.x, mx.y, mx.z⟩, ⟨mn.x, mx.y, mx.z⟩]

/-- `add_box(target_pos, target_idx, mn, mx)`: append the 8 corners and the
12 edges, offsetting the indices by the vertices already in the batch. -/
def add_box (b : Batch) (mn mx : Vec3) : Batch :=
  ⟨b.pos ++ boxVerts mn mx,
   b.idx ++ _BOX_EDGES.map (fun e => (b.pos.length + e.1, b.pos.length + e.2))⟩

/-- `active_eval_ptr and owner_ptr == active_eval_ptr` (a `None` or zero
pointer is falsy in Python). -/
def isActivePtr (active_eval_ptr : Option Nat) (owner_ptr : Nat) : Bool :=
  match active_eval_ptr with
  | none => false
  | some a => decide (a ≠ 0) && decide (owner_ptr = a)

/-- The loop of `_build_batches` over the AABB map, threading the two
batches under construction. -/
def buildFold (aep : Option Nat) (aabbs : List (Nat × (Vec3 × Vec3)))
    (sel act : Batch) : Batch × Batch :=
  match aabbs with
  | [] => (sel, act)
  | (owner_ptr, (mn, mx)) :: rest =>
    if isActivePtr aep owner_ptr then buildFold aep rest sel (add_box act mn mx)
    else buildFold aep rest (add_box sel mn mx) act

/-- `batch_for_shader(...) if sel_idx else None`: a batch is produced only
when its index buffer is non-empty. -/
def toBatch (b : Batch) : Option Batch :=
  if b.idx = [] then none else some b

/-- `_build_batches(aabbs, active_eval_ptr)` returning the
(selected-batch, active-batch) pair. -/
def _build_batches (aabbs : List (Nat × (Vec3 × Vec3))) (active_eval_ptr : Option Nat) :
    Option Batch × Option Batch :=
  if aabbs = [] then (none, none)
  else
    let built := buildFold active_eval_ptr aabbs ⟨[], []⟩ ⟨[], []⟩
    (toBatch built.1, toBatch built.2)

/-! ### Derived predicates used to state the verified properties -/

/-- One coordinate of an accumulator is either still at its initial
`inf` / `-inf` pair or already a finite, correctly ordered pair. -/
def WfX (mn mx : XQ) : Prop :=
  (mn = XQ.posInf ∧ mx = XQ.negInf) ∨ ∃ a b : ℚ, mn = XQ.fin a ∧ mx = XQ.fin b ∧ a ≤ b

/-- All three coordinates of an accumulator are well formed. -/
def WfAcc (st : Acc) : Prop :=
  WfX st.mn.x st.mx.x ∧ WfX st.mn.y st.mx.y ∧ WfX st.mn.z st.mx.z

/-- The instance resolves to a base and to an owner whose pointer is among
`ks`: the loop's dictionary lookup succeeds for it. -/
def matchedB (ks : List Nat) (inst : Instance) : Bool :=
  match instBase inst with
  | none => false
  | some _ =>
    match instOwner inst with
    | none => false
    | some o => decide (o.ptr ∈ ks)

/-- The instance is matched and additionally carries bounding geometry, so a
full pass would fold it (`total_hits` counts exactly these). -/
def foldsToB (ks : List Nat) (inst : Instance) : Bool :=
  matchedB ks inst && decide (worldCorners inst ≠ [])

/-- The instance folds and is attributed to the owner `ptr`. -/
def foldsToPtrB (ks : List Nat) (ptr : Nat) (inst : Instance) : Bool :=
  foldsToB ks inst && decide (instOwnerPtr inst = some ptr)

/-- The `count` field of the accumulator stored for `ptr` (0 if absent). -/
def cntOf (ptr : Nat) (l : List (Nat × Acc)) : Nat :=
  match lookupA ptr l with
  | none => 0
  | some a => a.count

/-- Invariant of the SAMPLED-mode pass: sampling stays on, `owners_done`
counts the saturated owners, and each accumulator is saturated exactly when
its count has reached the per-owner limit. -/
def SampInv (lim need : Nat) (s : PassState) : Prop :=
  s.sampling = true ∧ need = s.owners.length ∧
  s.owners_done = (s.owners.filter (fun pa => pa.2.done)).length ∧
  ∀ pa ∈ s.owners, (pa.2.done = true → pa.2.count = lim) ∧
    (pa.2.done = false → pa.2.count < lim)

/-- Concatenation of box wireframes onto an existing batch, in input order:
the characterizing function for `_build_batches`. -/
def appendBoxes (b : Batch) (items : List (Vec3 × Vec3)) : Batch :=
  items.foldl (fun acc p => add_box acc p.1 p.2) b

/-! ### Concrete fixtures used by the witnesses and the counterexample -/

/-- The identity world matrix. -/
def idMat : Mat4 := ⟨1, 0, 0, 0, 0, 1, 0, 0, 0, 0, 1, 0⟩

/-- Translation by `t` along the x axis. -/
def trMat (t : ℚ) : Mat4 := ⟨1, 0, 0, t, 0, 1, 0, 0, 0, 0, 1, 0⟩

/-- The 8 `bound_box` corners of a unit cube spanning `[0, 1]^3`. -/
def cubeBB : List Vec3 :=
  [⟨0, 0, 0⟩, ⟨0, 0, 1⟩, ⟨0, 1, 1⟩, ⟨0, 1, 0⟩, ⟨1, 0, 0⟩, ⟨1, 0, 1⟩, ⟨1, 1, 1⟩, ⟨1, 1, 0⟩]

/-- A selected owner object with pointer 1 and a unit-cube bound box. -/
def objA : Obj := ⟨1, idMat, some cubeBB⟩

/-- A second selected owner object with pointer 2. -/
def objB : Obj := ⟨2, trMat 5, some cubeBB⟩

/-- A non-instanced occurrence of `objA` translated by `t` along x. -/
def instAt (t : ℚ) : Instance := ⟨some objA, none, false, none, none, trMat t⟩

/-- A non-instanced occurrence of `objA` at the origin. -/
def instA : Instance := instAt 0

/-- A non-instanced occurrence of `objB`. -/
def instB : Instance := ⟨some objB, none, false, none, none, trMat 5⟩

/-- 1001 copies of `instA`: one more instance than the smallest allowed
`auto_threshold` (1000). -/
def ceInsts : List Instance := List.replicate 1001 instA

/-- AUTO mode at the minimum allowed threshold (1000) and the default
per-owner sample limit (256). -/
def cePsig : PrefsSig := (Mode.AUTO, 1000, 256)

/-- A cache state holding a visibly non-empty stale AABB map with changed
fingerprints, used to exercise the no-recompute paths. -/
def gStale : GState :=
  ⟨⟨-1, none, none, none, [(7, (⟨XQ.fin 0, XQ.fin 0, XQ.fin 0⟩, ⟨XQ.fin 1, XQ.fin 1, XQ.fin 1⟩))]⟩,
   4, 0⟩

/-! ### Order lemmas for the extended rationals -/

theorem xle_refl (a : XQ) : xle a a = true := by
  cases a <;> simp [xle]

theorem xle_trans : ∀ {a b c : XQ}, xle a b = true → xle b c = true → xle a c = true := by
  intro a b c h1 h2
  cases a <;> cases b <;> cases c <;> simp_all [xle]
  exact le_trans h1 h2

theorem updMin_widens (m : XQ) (x : ℚ) : xle (updMin m x) m = true := by
  unfold updMin
  split
  · cases m <;> simp_all [qltX, xle]
    exact le_of_lt (by assumption)
  · exact xle_refl m

theorem updMin_le_self (m : XQ) (x : ℚ) : xle (updMin m x) (XQ.fin x) = true := by
  unfold updMin
  split
  · exact xle_refl _
  · cases m <;> simp_all [qltX, xle]

theorem updMax_widens (m : XQ) (x : ℚ) : xle m (updMax m x) = true := by
  unfold updMax
  split
  · cases m <;> simp_all [qgtX, xle]
    exact le_of_lt (by assumption)
  · exact xle_refl m

theorem updMax_ge_self (m : XQ) (x : ℚ) : xle (XQ.fin x) (updMax m x) = true := by
  unfold updMax
  split
  · exact xle_refl _
  · cases m <;> simp_all [qgtX, xle]

theorem widens_refl (mn mx : XVec3) : widens mn mx mn mx :=
  ⟨xle_refl _, xle_refl _, xle_refl _, xle_refl _, xle_refl _, xle_refl _⟩

theorem widens_trans {a b c d e f : XVec3} (h1 : widens a b c d) (h2 : widens c d e f) :
    widens a b e f :=
  ⟨xle_trans h2.1 h1.1, xle_trans h2.2.1 h1.2.1, xle_trans h2.2.2.1 h1.2.2.1,
   xle_trans h1.2.2.2.1 h2.2.2.2.1, xle_trans h1.2.2.2.2.1 h2.2.2.2.2.1,
   xle_trans h1.2.2.2.2.2 h2.2.2.2.2.2⟩

theorem foldCorner_widens (mn mx : XVec3) (w : Vec3) :
    widens mn mx (foldCorner mn mx w).1 (foldCorner mn mx w).2 :=
  ⟨updMin_widens _ _, updMin_widens _ _, updMin_widens _ _,
   updMax_widens _ _, updMax_widens _ _, updMax_widens _ _⟩

theorem foldCorner_contains_self (mn mx : XVec3) (w : Vec3) :
    containsB (foldCorner mn mx w).1 (foldCorner mn mx w).2 w = true := by
  simp only [containsB, foldCorner, Bool.and_eq_true]
  exact ⟨⟨⟨updMin_le_self _ _, updMax_ge_self _ _⟩, updMin_le_self _ _, updMax_ge_self _ _⟩,
    updMin_le_self _ _, updMax_ge_self _ _⟩

theorem contains_of_widens {mn mx mn' mx' : XVec3} {v : Vec3}
    (hw : widens mn mx mn' mx') (hc : containsB mn mx v = true) :
    containsB mn' mx' v = true := by
  simp only [containsB, Bool.and_eq_true] at hc ⊢
  obtain ⟨⟨⟨h1, h2⟩, h3, h4⟩, h5, h6⟩ := hc
  exact ⟨⟨⟨xle_trans hw.1 h1, xle_trans h2 hw.2.2.2.1⟩,
    xle_trans hw.2.1 h3, xle_trans h4 hw.2.2.2.2.1⟩,
    xle_trans hw.2.2.1 h5, xle_trans h6 hw.2.2.2.2.2⟩

theorem foldCorners_cons (mw : Mat4) (c : Vec3) (rest : List Vec3) (mn mx : XVec3) :
    foldCorners mw (c :: rest) mn mx =
      foldCorners mw rest (foldCorner mn mx (mw.apply c)).1 (foldCorner mn mx (mw.apply c)).2 := by
  simp [foldCorners]

theorem foldCorners_widens (mw : Mat4) :
    ∀ (bbl : List Vec3) (mn mx : XVec3),
      widens mn mx (foldCorners mw bbl mn mx).1 (foldCorners mw bbl mn mx).2 := by
  intro bbl
  induction bbl with
  | nil => intro mn mx; exact widens_refl mn mx
  | cons c rest ih =>
    intro mn mx
    rw [foldCorners_cons]
    exact widens_trans (foldCorner_widens mn mx (mw.apply c)) (ih _ _)

theorem foldCorners_contains (mw : Mat4) :
    ∀ (bbl : List Vec3) (mn mx : XVec3) (c : Vec3), c ∈ bbl →
      containsB (foldCorners mw bbl mn mx).1 (foldCorners mw bbl mn mx).2 (mw.apply c) = true := by
  intro bbl
  induction bbl with
  | nil => intro _ _ _ h; cases h
  | cons c0 rest ih =>
    intro mn mx c hc
    rw [foldCorners_cons]
    rcases List.mem_cons.mp hc with rfl | hmem
    · exact contains_of_widens (foldCorners_widens mw rest _ _) (foldCorner_contains_self mn mx _)
    · exact ih _ _ c hmem

/-! ### Well-formedness of accumulator corners -/

theorem updMinMax_wf {mn mx : XQ} (x : ℚ) (h : WfX mn mx) :
    WfX (updMin mn x) (updMax mx x) := by
  rcases h with ⟨rfl, rfl⟩ | ⟨a, b, rfl, rfl, hab⟩
  · exact Or.inr ⟨x, x, by simp [updMin, qltX], by simp [updMax, qgtX], le_refl x⟩
  · refine Or.inr ⟨if x < a then x else a, if b < x then x else b, ?_, ?_, ?_⟩
    · simp only [updMin, qltX]
      split_ifs with h1 h2 h2 <;> simp_all
    · simp only [updMax, qgtX]
      split_ifs with h1 h2 h2 <;> simp_all
    · split_ifs <;> linarith

theorem foldCorner_wf {mn mx : XVec3} (w : Vec3)
    (h1 : WfX mn.x mx.x) (h2 : WfX mn.y mx.y) (h3 : WfX mn.z mx.z) :
    WfX (foldCorner mn mx w).1.x (foldCorner mn mx w).2.x ∧
    WfX (foldCorner mn mx w).1.y (foldCorner mn mx w).2.y ∧
    WfX (foldCorner mn mx w).1.z (foldCorner mn mx w).2.z :=
  ⟨updMinMax_wf _ h1, updMinMax_wf _ h2, updMinMax_wf _ h3⟩

theorem foldCorners_wf (mw : Mat4) :
    ∀ (bbl : List Vec3) (mn mx : XVec3),
      WfX mn.x mx.x → WfX mn.y mx.y → WfX mn.z mx.z →
      WfX (foldCorners mw bbl mn mx).1.x (foldCorners mw bbl mn mx).2.x ∧
      WfX (foldCorners mw bbl mn mx).1.y (foldCorners mw bbl mn mx).2.y ∧
      WfX (foldCorners mw bbl mn mx).1.z (foldCorners mw bbl mn mx).2.z := by
  intro bbl
  induction bbl with
  | nil => intro mn mx h1 h2 h3; exact ⟨h1, h2, h3⟩
  | cons c rest ih =>
    intro mn mx h1 h2 h3
    rw [foldCorners_cons]
    have h := foldCorner_wf (mw.apply c) h1 h2 h3
    exact ih _ _ h.1 h.2.1 h.2.2

/-! ### Association-list lemmas for the owners dictionary -/

theorem updAssoc_keys (k : Nat) (f : Acc → Acc) :
    ∀ l : List (Nat × Acc), (updAssoc k f l).map Prod.fst = l.map Prod.fst := by
  intro l
  induction l with
  | nil => rfl
  | cons p rest ih =>
    obtain ⟨k', a⟩ := p
    by_cases h : k' = k <;> simp [updAssoc, h, ih]

theorem updAssoc_length (k : Nat) (f : Acc → Acc) (l : List (Nat × Acc)) :
    (updAssoc k f l).length = l.length := by
  have := congrArg List.length (updAssoc_keys k f l)
  simpa using this

theorem lookupA_append_of_not_mem {k : Nat} {a : Acc} :
    ∀ (l1 : List (Nat × Acc)), (∀ p ∈ l1, p.1 ≠ k) →
      ∀ l2, lookupA k (l1 ++ (k, a) :: l2) = some a := by
  intro l1
  induction l1 with
  | nil => intro _ l2; simp [lookupA]
  | cons p rest ih =>
    obtain ⟨k0, b⟩ := p
    intro hne l2
    have hp : k0 ≠ k := hne (k0, b) (List.mem_cons_self _ rest)
    simp only [List.cons_append, lookupA, if_neg hp]
    exact ih (fun q hq => hne q (List.mem_cons_of_mem _ hq)) l2

theorem lookupA_split {k : Nat} {a : Acc} :
    ∀ {l : List (Nat × Acc)}, lookupA k l = some a →
      ∃ l1 l2, l = l1 ++ (k, a) :: l2 ∧ (∀ p ∈ l1, p.1 ≠ k) ∧
        ∀ f, updAssoc k f l = l1 ++ (k, f a) :: l2 := by
  intro l
  induction l with
  | nil => intro h; cases h
  | cons p rest ih =>
    obtain ⟨k', b⟩ := p
    intro h
    simp only [lookupA] at h
    split at h
    · rename_i hk
      subst hk
      injection h with h
      subst h
      exact ⟨[], rest, rfl, by simp, fun f => by simp [updAssoc]⟩
    · rename_i hk
      obtain ⟨l1, l2, hl, hne, hupd⟩ := ih h
      refine ⟨(k', b) :: l1, l2, by simp [hl], ?_, fun f => ?_⟩
      · intro p hp
        rcases List.mem_cons.mp hp with rfl | hp'
        · exact hk
        · exact hne p hp'
      · simp [updAssoc, if_neg hk, hupd f]

theorem lookupA_updAssoc_self {k : Nat} {a : Acc} {l : List (Nat × Acc)}
    (h : lookupA k l = some a) (f : Acc → Acc) :
    lookupA k (updAssoc k f l) = some (f a) := by
  obtain ⟨l1, l2, _, hne, hupd⟩ := lookupA_split h
  rw [hupd f]
  exact lookupA_append_of_not_mem l1 hne l2

theorem lookupA_updAssoc_ne {k k' : Nat} (hne : k' ≠ k) (f : Acc → Acc) :
    ∀ l : List (Nat × Acc), lookupA k' (updAssoc k f l) = lookupA k' l := by
  intro l
  induction l with
  | nil => rfl
  | cons p rest ih =>
    obtain ⟨k0, a⟩ := p
    simp only [updAssoc]
    by_cases h0 : k0 = k
    · rw [if_pos h0]
      subst h0
      have h1 : k0 ≠ k' := fun h => hne (h ▸ rfl)
      simp only [lookupA, if_neg h1]
    · rw [if_neg h0]
      simp only [lookupA]
      by_cases h1 : k0 = k' <;> simp [h1, ih]

theorem lookupA_mem {k : Nat} {a : Acc} :
    ∀ {l : List (Nat × Acc)}, lookupA k l = some a → (k, a) ∈ l := by
  intro l
  induction l with
  | nil => intro h; cases h
  | cons p rest ih =>
    obtain ⟨k', b⟩ := p
    intro h
    simp only [lookupA] at h
    split at h
    · rename_i hk
      subst hk
      injection h with h
      subst h
      exact List.mem_cons_self _ _
    · exact List.mem_cons_of_mem _ (ih h)

theorem mem_lookupA_of_nodup {k : Nat} {a : Acc} :
    ∀ {l : List (Nat × Acc)}, (l.map Prod.fst).Nodup → (k, a) ∈ l → lookupA k l = some a := by
  intro l
  induction l with
  | nil => intro _ h; cases h
  | cons p rest ih =>
    obtain ⟨k', b⟩ := p
    intro hnd hm
    simp only [List.map_cons, List.nodup_cons] at hnd
    rcases List.mem_cons.mp hm with heq | hm'
    · injection heq with h1 h2
      subst h1
      subst h2
      simp [lookupA]
    · have hk : k' ≠ k := by
        intro h
        subst h
        exact hnd.1 (List.mem_map.mpr ⟨(k', a), hm', rfl⟩)
      simp only [lookupA, if_neg hk]
      exact ih hnd.2 hm'

theorem lookupA_isSome_iff {k : Nat} :
    ∀ {l : List (Nat × Acc)}, (lookupA k l).isSome = true ↔ k ∈ l.map Prod.fst := by
  intro l
  induction l with
  | nil => simp [lookupA]
  | cons p rest ih =>
    obtain ⟨k', a⟩ := p
    by_cases hk : k' = k
    · subst hk
      simp [lookupA]
    · simp [lookupA, if_neg hk, ih, Ne.symm hk]

theorem lookupA_eq_none_iff {k : Nat} {l : List (Nat × Acc)} :
    lookupA k l = none ↔ k ∉ l.map Prod.fst := by
  rw [← lookupA_isSome_iff]
  cases lookupA k l <;> simp

theorem mem_updAssoc {k : Nat} (f : Acc → Acc) :
    ∀ {l : List (Nat × Acc)} {pa : Nat × Acc}, pa ∈ updAssoc k f l →
      pa ∈ l ∨ ∃ a, lookupA k l = some a ∧ pa = (k, f a) := by
  intro l
  induction l with
  | nil => intro pa h; cases h
  | cons p rest ih =>
    obtain ⟨k', b⟩ := p
    intro pa h
    by_cases hk : k' = k
    · subst hk
      simp only [updAssoc, if_pos rfl] at h
      rcases List.mem_cons.mp h with rfl | h'
      · exact Or.inr ⟨b, by simp [lookupA], rfl⟩
      · exact Or.inl (List.mem_cons_of_mem _ h')
    · simp only [updAssoc, if_neg hk] at h
      rcases List.mem_cons.mp h with rfl | h'
      · exact Or.inl (List.mem_cons_self _ _)
      · rcases ih h' with h'' | ⟨a, ha, hpa⟩
        · exact Or.inl (List.mem_cons_of_mem _ h'')
        · exact Or.inr ⟨a, by simp [lookupA, if_neg hk, ha], hpa⟩

/-! ### `initOwners` and `finalize` lemmas -/

theorem initOwners_keys (selected : List Obj) :
    (initOwners selected).map Prod.fst = selected.map Obj.ptr := by
  simp [initOwners]

theorem lookupA_initOwners {selected : List Obj} {p : Nat}
    (h : p ∈ selected.map Obj.ptr) : lookupA p (initOwners selected) = some initAcc := by
  induction selected with
  | nil => cases h
  | cons o rest ih =>
    simp only [List.map_cons, List.mem_cons] at h
    by_cases hp : o.ptr = p
    · simp [initOwners, lookupA, hp]
    · rcases h with h | h
      · exact absurd h.symm hp
      · simpa [initOwners, lookupA, hp] using ih h

theorem mem_finalize :
    ∀ {l : List (Nat × Acc)} {p : Nat} {box : XVec3 × XVec3}, (p, box) ∈ finalize l →
      ∃ st : Acc, (p, st) ∈ l ∧ excludedAcc st = false ∧ st.mn = box.1 ∧ st.mx = box.2 := by
  intro l
  induction l with
  | nil => intro p box h; cases h
  | cons pa rest ih =>
    obtain ⟨p0, st0⟩ := pa
    intro p box h
    simp only [finalize] at h
    split at h
    · obtain ⟨st, hmem, hex, hmn, hmx⟩ := ih h
      exact ⟨st, List.mem_cons_of_mem _ hmem, hex, hmn, hmx⟩
    · rename_i hex0
      rcases List.mem_cons.mp h with heq | h'
      · injection heq with h1 h2
        subst h1
        subst h2
        exact ⟨st0, List.mem_cons_self _ _, by simpa using hex0, rfl, rfl⟩
      · obtain ⟨st, hmem, hex, hmn, hmx⟩ := ih h'
        exact ⟨st, List.mem_cons_of_mem _ hmem, hex, hmn, hmx⟩

theorem key_mem_finalize {l : List (Nat × Acc)} {p : Nat}
    (h : p ∈ (finalize l).map Prod.fst) :
    ∃ st : Acc, (p, st) ∈ l ∧ excludedAcc st = false := by
  obtain ⟨⟨p', box⟩, hmem, hp⟩ := List.mem_map.mp h
  cases hp
  obtain ⟨st, hmem', hex, _, _⟩ := mem_finalize hmem
  exact ⟨st, hmem', hex⟩

theorem excludedAcc_initAcc : excludedAcc initAcc = true := by
  simp [excludedAcc, initAcc]

/-! ### Characterization of one loop iteration -/

/-- Complete case analysis of `passStep`: either the instance is skipped
without touching the state (no base, no owner, or owner not selected), or
the owner is looked up and the iteration (a) skips a saturated owner,
(b) skips an instance without bounding geometry, or (c) folds the corners,
possibly marking the owner done and possibly breaking the loop. -/
theorem passStep_shape (mode : Mode) (thr lim need : Nat) (inst : Instance) (s : PassState) :
    (passStep mode thr lim need inst s = StepOut.cont s ∧
      ∀ p, instOwnerPtr inst = some p → lookupA p s.owners = none) ∨
    ∃ owner st, instOwner inst = some owner ∧ instOwnerPtr inst = some owner.ptr ∧
      lookupA owner.ptr s.owners = some st ∧
      ∃ b : Bool,
        b = (if mode = Mode.AUTO ∧ s.sampling = false ∧ thr ≤ s.total_hits then true
             else s.sampling) ∧
        ((b = true ∧ st.done = true ∧
           ((passStep mode thr lim need inst s = StepOut.cont { s with sampling := b } ∧
              ¬ need ≤ s.owners_done) ∨
            (passStep mode thr lim need inst s = StepOut.halt { s with sampling := b } ∧
              need ≤ s.owners_done))) ∨
         (¬(b = true ∧ st.done = true) ∧ worldCorners inst = [] ∧
           passStep mode thr lim need inst s = StepOut.cont { s with sampling := b }) ∨
         (∃ bbl, ¬(b = true ∧ st.done = true) ∧ bbl ≠ [] ∧
           worldCorners inst = bbl.map inst.matrix_world.apply ∧
           (((b = true ∧ lim ≤ st.count + 1) ∧
              ((passStep mode thr lim need inst s = StepOut.cont
                  ⟨b, s.total_hits + 1, s.owners_done + 1,
                   updAssoc owner.ptr (fun _ =>
                     ⟨(foldCorners inst.matrix_world bbl st.mn st.mx).1,
                      (foldCorners inst.matrix_world bbl st.mn st.mx).2,
                      st.count + 1, true⟩) s.owners⟩ ∧ ¬ need ≤ s.owners_done + 1) ∨
               (passStep mode thr lim need inst s = StepOut.halt
                  ⟨b, s.total_hits + 1, s.owners_done + 1,
                   updAssoc owner.ptr (fun _ =>
                     ⟨(foldCorners inst.matrix_world bbl st.mn st.mx).1,
                      (foldCorners inst.matrix_world bbl st.mn st.mx).2,
                      st.count + 1, true⟩) s.owners⟩ ∧ need ≤ s.owners_done + 1))) ∨
            (¬(b = true ∧ lim ≤ st.count + 1) ∧
              passStep mode thr lim need inst s = StepOut.cont
                ⟨b, s.total_hits + 1, s.owners_done,
                 updAssoc owner.ptr (fun _ =>
                   ⟨(foldCorners inst.matrix_world bbl st.mn st.mx).1,
                    (foldCorners inst.matrix_world bbl st.mn st.mx).2,
                    st.count + 1, st.done⟩) s.owners⟩)))) := by
  cases hbase : instBase inst with
  | none =>
    left
    constructor
    · simp only [passStep, hbase]
    · intro p hp
      simp [instOwnerPtr, hbase] at hp
  | some base =>
    cases howner : instOwner inst with
    | none =>
      left
      constructor
      · simp only [passStep, hbase, howner]
      · intro p hp
        simp [instOwnerPtr, hbase, howner] at hp
    | some owner =>
      cases hlk : lookupA owner.ptr s.owners with
      | none =>
        left
        constructor
        · simp only [passStep, hbase, howner, hlk]
        · intro p hp
          simp only [instOwnerPtr, hbase, howner] at hp
          injection hp with hp
          subst hp
          exact hlk
      | some st =>
        right
        have hptr : instOwnerPtr inst = some owner.ptr := by
          simp [instOwnerPtr, hbase, howner]
        refine ⟨owner, st, rfl, hptr, hlk, ?_⟩
        refine ⟨if mode = Mode.AUTO ∧ s.sampling = false ∧ thr ≤ s.total_hits then true
                else s.sampling, rfl, ?_⟩
        by_cases hskip : (if mode = Mode.AUTO ∧ s.sampling = false ∧ thr ≤ s.total_hits
            then true else s.sampling) = true ∧ st.done = true
        · left
          refine ⟨hskip.1, hskip.2, ?_⟩
          by_cases hneed : need ≤ s.owners_done
          · right
            refine ⟨?_, hneed⟩
            simp only [passStep, hbase, howner, hlk]
            rw [if_pos hskip, if_pos hneed]
          · left
            refine ⟨?_, hneed⟩
            simp only [passStep, hbase, howner, hlk]
            rw [if_pos hskip, if_neg hneed]
        · cases hbb : base.bound_box with
          | none =>
            right; left
            refine ⟨hskip, by simp [worldCorners, hbase, hbb], ?_⟩
            simp only [passStep, hbase, howner, hlk]
            rw [if_neg hskip, hbb]
          | some bbl =>
            by_cases hnil : bbl = []
            · right; left
              refine ⟨hskip, by simp [worldCorners, hbase, hbb, hnil], ?_⟩
              simp only [passStep, hbase, howner, hlk]
              rw [if_neg hskip, hbb]
              simp only [if_pos hnil]
            · right; right
              refine ⟨bbl, hskip, hnil, by simp [worldCorners, hbase, hbb], ?_⟩
              by_cases hcap : (if mode = Mode.AUTO ∧ s.sampling = false ∧ thr ≤ s.total_hits
                  then true else s.sampling) = true ∧ lim ≤ st.count + 1
              · left
                refine ⟨hcap, ?_⟩
                by_cases hneed : need ≤ s.owners_done + 1
                · right
                  refine ⟨?_, hneed⟩
                  simp only [passStep, hbase, howner, hlk]
                  rw [if_neg hskip, hbb]
                  simp only [if_neg hnil, if_pos hcap, if_pos hneed]
                · left
                  refine ⟨?_, hneed⟩
                  simp only [passStep, hbase, howner, hlk]
                  rw [if_neg hskip, hbb]
                  simp only [if_neg hnil, if_pos hcap, if_neg hneed]
              · right
                refine ⟨hcap, ?_⟩
                simp only [passStep, hbase, howner, hlk]
                rw [if_neg hskip, hbb]
                simp only [if_neg hnil, if_neg hcap]

/-! ### Generic step and loop lemmas -/

theorem passStep_keys (mode : Mode) (thr lim need : Nat) (inst : Instance) (s : PassState) :
    ((passStep mode thr lim need inst s).state).owners.map Prod.fst =
      s.owners.map Prod.fst := by
  rcases passStep_shape mode thr lim need inst s with ⟨heq, -⟩ |
    ⟨owner, st, -, -, -, b, -, ⟨-, -, ⟨heq, -⟩ | ⟨heq, -⟩⟩ | ⟨-, -, heq⟩ |
      ⟨bbl, -, -, -, ⟨-, ⟨heq, -⟩ | ⟨heq, -⟩⟩ | ⟨-, heq⟩⟩⟩ <;>
    rw [heq] <;> simp [StepOut.state, updAssoc_keys]

theorem passStep_sampling_mono (mode : Mode) (thr lim need : Nat) (inst : Instance)
    (s : PassState) (hs : s.sampling = true) :
    ((passStep mode thr lim need inst s).state).sampling = true := by
  have hbs : (if mode = Mode.AUTO ∧ s.sampling = false ∧ thr ≤ s.total_hits then true
      else s.sampling) = true := by
    split
    · rfl
    · exact hs
  rcases passStep_shape mode thr lim need inst s with ⟨heq, -⟩ |
    ⟨owner, st, -, -, -, b, hb, ⟨-, -, ⟨heq, -⟩ | ⟨heq, -⟩⟩ | ⟨-, -, heq⟩ |
      ⟨bbl, -, -, -, ⟨-, ⟨heq, -⟩ | ⟨heq, -⟩⟩ | ⟨-, heq⟩⟩⟩
  · rw [heq]
    exact hs
  all_goals rw [heq]; simp only [StepOut.state]; rw [hb]; exact hbs

theorem passStep_halt_od (mode : Mode) (thr lim need : Nat) (inst : Instance)
    (s s' : PassState) (h : passStep mode thr lim need inst s = StepOut.halt s') :
    need ≤ s'.owners_done := by
  rcases passStep_shape mode thr lim need inst s with ⟨heq, -⟩ |
    ⟨owner, st, -, -, -, b, -, ⟨-, -, ⟨heq, -⟩ | ⟨heq, hod⟩⟩ | ⟨-, -, heq⟩ |
      ⟨bbl, -, -, -, ⟨-, ⟨heq, -⟩ | ⟨heq, hod⟩⟩ | ⟨-, heq⟩⟩⟩ <;>
    rw [heq] at h <;> cases h <;> exact hod

theorem passLoop_keys (mode : Mode) (thr lim need : Nat) :
    ∀ (insts : List Instance) (s : PassState),
      ((passLoop mode thr lim need insts s).1).owners.map Prod.fst =
        s.owners.map Prod.fst := by
  intro insts
  induction insts with
  | nil => intro s; rfl
  | cons inst rest ih =>
    intro s
    have hk := passStep_keys mode thr lim need inst s
    cases hstep : passStep mode thr lim need inst s with
    | cont s1 =>
      rw [hstep] at hk
      simp only [passLoop, hstep]
      rw [ih s1]
      exact hk
    | halt s1 =>
      rw [hstep] at hk
      simp only [passLoop, hstep]
      exact hk

theorem passLoop_sampling_mono (mode : Mode) (thr lim need : Nat) :
    ∀ (insts : List Instance) (s : PassState), s.sampling = true →
      ((passLoop mode thr lim need insts s).1).sampling = true := by
  intro insts
  induction insts with
  | nil => intro s hs; exact hs
  | cons inst rest ih =>
    intro s hs
    have hm := passStep_sampling_mono mode thr lim need inst s hs
    cases hstep : passStep mode thr lim need inst s with
    | cont s1 =>
      rw [hstep] at hm
      simp only [passLoop, hstep]
      exact ih s1 hm
    | halt s1 =>
      rw [hstep] at hm
      simp only [passLoop, hstep]
      exact hm

/-! ### The ACCURATE-mode pass: exhaustive folding and containment -/

/-- In Accurate mode the loop never breaks, the sampling flag stays off, and
every finally looked-up accumulator (a) widens the accumulator it started
from and (b) contains every world-space corner of every instance attributed
to its owner. -/
theorem accurate_loop (thr lim need : Nat) :
    ∀ (insts : List Instance) (s : PassState), s.sampling = false →
      ∃ s', passLoop Mode.ACCURATE thr lim need insts s = (s', []) ∧ s'.sampling = false ∧
        ∀ ptr acc', lookupA ptr s'.owners = some acc' →
          ∃ acc, lookupA ptr s.owners = some acc ∧
            widens acc.mn acc.mx acc'.mn acc'.mx ∧
            ∀ inst ∈ insts, instOwnerPtr inst = some ptr →
              ∀ c ∈ worldCorners inst, containsB acc'.mn acc'.mx c = true := by
  intro insts
  induction insts with
  | nil =>
    intro s hs
    refine ⟨s, rfl, hs, ?_⟩
    intro ptr acc' h
    exact ⟨acc', h, widens_refl _ _, fun inst hmem => absurd hmem (List.not_mem_nil inst)⟩
  | cons inst rest ih =>
    intro s hs
    have hb_eq : (if Mode.ACCURATE = Mode.AUTO ∧ s.sampling = false ∧ thr ≤ s.total_hits
        then true else s.sampling) = s.sampling := by
      rw [if_neg]
      rintro ⟨h, -⟩
      exact absurd h (by simp)
    rcases passStep_shape Mode.ACCURATE thr lim need inst s with ⟨heq, hnone⟩ |
      ⟨owner, st, howner, hptr, hlk, b, hb, hcases⟩
    · obtain ⟨s', hloop, hs', hinv⟩ := ih s hs
      refine ⟨s', by simp only [passLoop, heq, hloop], hs', ?_⟩
      intro ptr acc' hlk'
      obtain ⟨acc, hlka, hw, hcont⟩ := hinv ptr acc' hlk'
      refine ⟨acc, hlka, hw, ?_⟩
      intro i hmem hpi c hc
      rcases List.mem_cons.mp hmem with rfl | hmem'
      · rw [hnone ptr hpi] at hlka
        cases hlka
      · exact hcont i hmem' hpi c hc
    · have hbf : b = false := by rw [hb, hb_eq, hs]
      rcases hcases with ⟨hb1, -, -⟩ | ⟨-, hwc, heq⟩ | ⟨bbl, -, hnil, hwc, hfold⟩
      · rw [hbf] at hb1
        cases hb1
      · have hstate : ({ s with sampling := b } : PassState) = s := by
          rw [hbf, ← hs]
        obtain ⟨s', hloop, hs', hinv⟩ := ih s hs
        refine ⟨s', ?_, hs', ?_⟩
        · have h2 : passLoop Mode.ACCURATE thr lim need (inst :: rest) s =
              passLoop Mode.ACCURATE thr lim need rest s := by
            simp only [passLoop, heq, hstate]
          rw [h2, hloop]
        · intro ptr acc' hlk'
          obtain ⟨acc, hlka, hw, hcont⟩ := hinv ptr acc' hlk'
          refine ⟨acc, hlka, hw, ?_⟩
          intro i hmem hpi c hc
          rcases List.mem_cons.mp hmem with rfl | hmem'
          · rw [hwc] at hc
            cases hc
          · exact hcont i hmem' hpi c hc
      · rcases hfold with ⟨⟨hb1, -⟩, -⟩ | ⟨-, heq⟩
        · rw [hbf] at hb1
          cases hb1
        · obtain ⟨s', hloop, hs', hinv⟩ := ih
            ⟨b, s.total_hits + 1, s.owners_done,
             updAssoc owner.ptr (fun _ =>
               ⟨(foldCorners inst.matrix_world bbl st.mn st.mx).1,
                (foldCorners inst.matrix_world bbl st.mn st.mx).2,
                st.count + 1, st.done⟩) s.owners⟩ hbf
          refine ⟨s', ?_, hs', ?_⟩
          · have h2 : passLoop Mode.ACCURATE thr lim need (inst :: rest) s =
                passLoop Mode.ACCURATE thr lim need rest
                  ⟨b, s.total_hits + 1, s.owners_done,
                   updAssoc owner.ptr (fun _ =>
                     ⟨(foldCorners inst.matrix_world bbl st.mn st.mx).1,
                      (foldCorners inst.matrix_world bbl st.mn st.mx).2,
                      st.count + 1, st.done⟩) s.owners⟩ := by
              simp only [passLoop, heq]
            rw [h2, hloop]
          · intro ptr acc' hlk'
            obtain ⟨acc2, hlka2, hw2, hcont2⟩ := hinv ptr acc' hlk'
            by_cases hpp : ptr = owner.ptr
            · subst hpp
              have hupd : lookupA owner.ptr
                  (updAssoc owner.ptr (fun _ =>
                    ⟨(foldCorners inst.matrix_world bbl st.mn st.mx).1,
                     (foldCorners inst.matrix_world bbl st.mn st.mx).2,
                     st.count + 1, st.done⟩) s.owners) = some
                  ⟨(foldCorners inst.matrix_world bbl st.mn st.mx).1,
                   (foldCorners inst.matrix_world bbl st.mn st.mx).2,
                   st.count + 1, st.done⟩ :=
                lookupA_updAssoc_self hlk _
              rw [hupd] at hlka2
              injection hlka2 with hlka2
              subst hlka2
              refine ⟨st, hlk, widens_trans (foldCorners_widens _ bbl st.mn st.mx) hw2, ?_⟩
              intro i hmem hpi c hc
              rcases List.mem_cons.mp hmem with rfl | hmem'
              · rw [hwc] at hc
                obtain ⟨c0, hc0, rfl⟩ := List.mem_map.mp hc
                exact contains_of_widens hw2 (foldCorners_contains _ bbl st.mn st.mx c0 hc0)
              · exact hcont2 i hmem' hpi c hc
            · have hne : lookupA ptr
                  (updAssoc owner.ptr (fun _ =>
                    ⟨(foldCorners inst.matrix_world bbl st.mn st.mx).1,
                     (foldCorners inst.matrix_world bbl st.mn st.mx).2,
                     st.count + 1, st.done⟩) s.owners) = lookupA ptr s.owners :=
                lookupA_updAssoc_ne hpp _ s.owners
              rw [hne] at hlka2
              refine ⟨acc2, hlka2, hw2, ?_⟩
              intro i hmem hpi c hc
              rcases List.mem_cons.mp hmem with rfl | hmem'
              · rw [hptr] at hpi
                injection hpi with hpi
                exact absurd hpi.symm hpp
              · exact hcont2 i hmem' hpi c hc

/-- C1: In Accurate mode (`accuracy_mode = 'ACCURATE'`), for every owner
present in the AABB map produced by a recompute of `_collect_aabbs_cached`,
and for every enumerated instance attributed to that owner whose base
geometry has a `bound_box`, each of the instance's local corners transformed
by the instance's world matrix lies componentwise between the returned min
and max of that owner's AABB. -/
theorem C1_accurate_containment (psig : PrefsSig) (selected : List Obj)
    (insts : List Instance) (hm : psig.1 = Mode.ACCURATE)
    (hnd : (selected.map Obj.ptr).Nodup) :
    ∀ ptr box, (ptr, box) ∈ recompute psig selected insts →
      ∀ inst ∈ insts, instOwnerPtr inst = some ptr →
        ∀ c ∈ worldCorners inst, containsB box.1 box.2 c = true := by
  intro ptr box hmem inst hinst hptr c hc
  have hs0 : (initPass psig selected).sampling = false := by
    simp [initPass, hm]
  obtain ⟨s', hloop, hs', hinv⟩ :=
    accurate_loop psig.2.1 psig.2.2 selected.length insts (initPass psig selected) hs0
  unfold recompute at hmem
  rw [hm, hloop] at hmem
  obtain ⟨st, hmemo, hex, hmn, hmx⟩ := mem_finalize hmem
  have hkeys : s'.owners.map Prod.fst = selected.map Obj.ptr := by
    have hk := passLoop_keys Mode.ACCURATE psig.2.1 psig.2.2 selected.length insts
      (initPass psig selected)
    rw [hloop] at hk
    simpa [initPass, initOwners_keys] using hk
  have hlk : lookupA ptr s'.owners = some st :=
    mem_lookupA_of_nodup (by rw [hkeys]; exact hnd) hmemo
  obtain ⟨acc, -, -, hcont⟩ := hinv ptr st hlk
  rw [← hmn, ← hmx]
  exact hcont inst hinst hptr c hc

/-- Witness for C1 at the spec's concrete scenario: three unit cubes at
x-translations 0, 1, 2 produce the box `[0,3] × [0,1] × [0,1]`, which
contains the corner `(3, 1, 1)` of the third instance. -/
theorem C1_witness :
    ((Mode.ACCURATE, 10000, 256) : PrefsSig).1 = Mode.ACCURATE ∧
    containsB ⟨XQ.fin 0, XQ.fin 0, XQ.fin 0⟩ ⟨XQ.fin 3, XQ.fin 1, XQ.fin 1⟩ ⟨3, 1, 1⟩ = true := by
  refine ⟨rfl, C1_accurate_containment (Mode.ACCURATE, 10000, 256) [objA]
    [instAt 0, instAt 1, instAt 2] rfl (by decide) 1
    (⟨XQ.fin 0, XQ.fin 0, XQ.fin 0⟩, ⟨XQ.fin 3, XQ.fin 1, XQ.fin 1⟩)
    ?_ (instAt 2) (by simp) (by decide) ⟨3, 1, 1⟩ (by with_unfolding_all decide)⟩
  rw [show recompute (Mode.ACCURATE, 10000, 256) [objA] [instAt 0, instAt 1, instAt 2] =
      [(1, (⟨XQ.fin 0, XQ.fin 0, XQ.fin 0⟩, ⟨XQ.fin 3, XQ.fin 1, XQ.fin 1⟩))] from
    by with_unfolding_all rfl]
  exact List.mem_singleton.mpr rfl

/-- C5: If sub-object edit mode is active (`context.mode` starts with
`'EDIT'`), `_collect_aabbs_cached` returns an empty AABB map and leaves the
entire module state — all four stored fingerprint components, the stored
AABB map, and the last-update timestamp — exactly as before the call. -/
theorem C5_edit_mode_short_circuit (g : GState) (inp : CollectInput)
    (h : inp.mode.startsWith "EDIT" = true) :
    _collect_aabbs_cached g inp = ([], g) := by
  unfold _collect_aabbs_cached
  rw [if_pos h]

/-- Witness for C5: a call in `EDIT_MESH` mode, against a cache holding a
non-empty stale map, returns the empty map and the untouched state. -/
theorem C5_witness :
    ("EDIT_MESH".startsWith "EDIT") = true ∧
    _collect_aabbs_cached gStale ⟨"EDIT_MESH", [objA], [instA], none, 100⟩ = ([], gStale) :=
  ⟨by with_unfolding_all rfl,
   C5_edit_mode_short_circuit gStale ⟨"EDIT_MESH", [objA], [instA], none, 100⟩
     (by with_unfolding_all rfl)⟩

/-- C9: If the set of selected, visible objects is empty and edit mode is
not active, `_collect_aabbs_cached` returns an empty map immediately and
does not consult or mutate the cache or the last-update timestamp, even
when the stored cache is non-empty, fingerprints changed and the gate
elapsed. -/
theorem C9_empty_selection (g : GState) (inp : CollectInput)
    (h1 : inp.mode.startsWith "EDIT" = false) (h2 : inp.selected_eval = []) :
    _collect_aabbs_cached g inp = ([], g) := by
  unfold _collect_aabbs_cached
  rw [if_neg (by simp [h1]), if_pos h2]

/-- Witness for C9: object mode, no selection, stale non-empty cache with
changed fingerprints and an elapsed gate; the call still returns the empty
map and the untouched state. -/
theorem C9_witness :
    ("OBJECT".startsWith "EDIT") = false ∧
    _collect_aabbs_cached gStale ⟨"OBJECT", [], [instA], none, 100⟩ = ([], gStale) :=
  ⟨by with_unfolding_all rfl,
   C9_empty_selection gStale ⟨"OBJECT", [], [instA], none, 100⟩
     (by with_unfolding_all rfl) rfl⟩

/-- C2: With a non-empty selected-and-visible set and edit mode inactive,
`_collect_aabbs_cached` performs the enumeration/accumulation pass iff at
least one of the four fingerprint components differs from the cached one
AND `now - _last_update_time` is at least the refresh interval; in every
other case it returns the cached AABB map and leaves the state untouched —
the stale cached map when the fingerprint changed but the gate has not
elapsed, and the cached map regardless of elapsed time when the fingerprint
is unchanged. -/
theorem C2_cache_gate (g : GState) (inp : CollectInput)
    (h1 : inp.mode.startsWith "EDIT" = false) (h2 : inp.selected_eval ≠ []) :
    (needs_recompute g inp = true ↔
      (g.cache.dg_version ≠ g.dg_version ∨
       g.cache.selected_key ≠ some (_selected_key inp.selected_eval) ∨
       g.cache.xform_key ≠ some (_xform_key inp.selected_eval) ∨
       g.cache.prefs_sig ≠ some (_prefs_sig inp.prefs))) ∧
    (needs_recompute g inp = true ∧ _interval inp.prefs ≤ inp.now - g.last_update_time →
      _collect_aabbs_cached g inp =
        (recompute (_prefs_sig inp.prefs) inp.selected_eval inp.instances,
         ⟨⟨g.dg_version, some (_selected_key inp.selected_eval),
           some (_xform_key inp.selected_eval), some (_prefs_sig inp.prefs),
           recompute (_prefs_sig inp.prefs) inp.selected_eval inp.instances⟩,
          g.dg_version, inp.now⟩)) ∧
    (needs_recompute g inp = false ∨ inp.now - g.last_update_time < _interval inp.prefs →
      _collect_aabbs_cached g inp = (g.cache.aabbs, g)) := by
  refine ⟨?_, ?_, ?_⟩
  · simp [needs_recompute, or_assoc]
  · rintro ⟨hn, hg⟩
    unfold _collect_aabbs_cached
    rw [if_neg (by simp [h1]), if_neg h2, if_neg]
    rintro (hf | hlt)
    · rw [hn] at hf
      cases hf
    · exact absurd hlt (not_lt.mpr hg)
  · intro hcase
    unfold _collect_aabbs_cached
    rw [if_neg (by simp [h1]), if_neg h2, if_pos hcase]

/-- Witness for C2: object mode with one selected owner against an
out-of-date cache; both gate directions of the theorem instantiated. -/
theorem C2_witness :
    (needs_recompute gStale ⟨"OBJECT", [objA], [], none, 100⟩ = true ↔
      (gStale.cache.dg_version ≠ gStale.dg_version ∨
       gStale.cache.selected_key ≠ some (_selected_key [objA]) ∨
       gStale.cache.xform_key ≠ some (_xform_key [objA]) ∨
       gStale.cache.prefs_sig ≠ some (_prefs_sig none))) ∧
    (needs_recompute gStale ⟨"OBJECT", [objA], [], none, 100⟩ = true ∧
        _interval none ≤ (100 : ℚ) - gStale.last_update_time →
      _collect_aabbs_cached gStale ⟨"OBJECT", [objA], [], none, 100⟩ =
        (recompute (_prefs_sig none) [objA] [],
         ⟨⟨gStale.dg_version, some (_selected_key [objA]), some (_xform_key [objA]),
           some (_prefs_sig none), recompute (_prefs_sig none) [objA] []⟩,
          gStale.dg_version, 100⟩)) ∧
    (needs_recompute gStale ⟨"OBJECT", [objA], [], none, 100⟩ = false ∨
        (100 : ℚ) - gStale.last_update_time < _interval none →
      _collect_aabbs_cached gStale ⟨"OBJECT", [objA], [], none, 100⟩ =
        (gStale.cache.aabbs, gStale)) :=
  C2_cache_gate gStale ⟨"OBJECT", [objA], [], none, 100⟩ (by with_unfolding_all rfl)
    (by decide)

/-- C6: The selection key is order-invariant: any two selection sequences
producing the same set of selected owner pointers yield the identical
sorted key from `_selected_key`, and hence the same cache hit/miss decision
on that component. -/
theorem C6_selection_key_order_invariant (s1 s2 : List Obj)
    (h1 : (s1.map Obj.ptr).Nodup) (h2 : (s2.map Obj.ptr).Nodup)
    (h : (s1.map Obj.ptr).toFinset = (s2.map Obj.ptr).toFinset) :
    _selected_key s1 = _selected_key s2 ∧
    ∀ c : Cache, (c.selected_key ≠ some (_selected_key s1) ↔
      c.selected_key ≠ some (_selected_key s2)) := by
  have hperm : (s1.map Obj.ptr).Perm (s2.map Obj.ptr) := by
    have hd := List.toFinset_eq_iff_perm_dedup.mp h
    rwa [List.dedup_eq_self.mpr h1, List.dedup_eq_self.mpr h2] at hd
  have hkey : _selected_key s1 = _selected_key s2 := by
    unfold _selected_key
    exact List.eq_of_perm_of_sorted
      (((List.perm_insertionSort _ _).trans hperm).trans
        (List.perm_insertionSort _ _).symm)
      (List.sorted_insertionSort _ _) (List.sorted_insertionSort _ _)
  exact ⟨hkey, fun c => by rw [hkey]⟩

/-- Witness for C6: selecting `{A, B}` as `[A, B]` or `[B, A]` produces the
same sorted key and the same cache decision. -/
theorem C6_witness :
    ([objA, objB].map Obj.ptr).Nodup ∧
    _selected_key [objA, objB] = _selected_key [objB, objA] :=
  ⟨by decide,
   (C6_selection_key_order_invariant [objA, objB] [objB, objA]
     (by decide) (by decide) (by decide)).1⟩

/-- An owner whose accumulator is never folded into keeps its initial
accumulator through the whole loop. -/
theorem loop_untouched (mode : Mode) (thr lim need ptr : Nat) :
    ∀ (insts : List Instance) (s : PassState),
      lookupA ptr s.owners = some initAcc →
      (∀ inst ∈ insts, ¬(instOwnerPtr inst = some ptr ∧ worldCorners inst ≠ [])) →
      lookupA ptr ((passLoop mode thr lim need insts s).1).owners = some initAcc := by
  intro insts
  induction insts with
  | nil => intro s h _; exact h
  | cons inst rest ih =>
    intro s h hno
    have hrest : ∀ i ∈ rest, ¬(instOwnerPtr i = some ptr ∧ worldCorners i ≠ []) :=
      fun i hi => hno i (List.mem_cons_of_mem _ hi)
    rcases passStep_shape mode thr lim need inst s with ⟨heq, -⟩ |
      ⟨owner, st, -, hptr, hlk, b, -, hcases⟩
    · simp only [passLoop, heq]
      exact ih s h hrest
    · rcases hcases with ⟨-, -, ⟨heq, -⟩ | ⟨heq, -⟩⟩ | ⟨-, -, heq⟩ |
        ⟨bbl, -, hnil, hwc, hfold⟩
      · simp only [passLoop, heq]
        exact ih _ h hrest
      · simp only [passLoop, heq]
        exact h
      · simp only [passLoop, heq]
        exact ih _ h hrest
      · have hne : ptr ≠ owner.ptr := by
          intro hpe
          refine hno inst (List.mem_cons_self _ _) ⟨by rw [hptr, hpe], ?_⟩
          rw [hwc]
          simpa using hnil
        rcases hfold with ⟨-, ⟨heq, -⟩ | ⟨heq, -⟩⟩ | ⟨-, heq⟩
        · simp only [passLoop, heq]
          refine ih _ ?_ hrest
          rw [lookupA_updAssoc_ne hne _ s.owners]
          exact h
        · simp only [passLoop, heq]
          rw [lookupA_updAssoc_ne hne _ s.owners]
          exact h
        · simp only [passLoop, heq]
          refine ih _ ?_ hrest
          rw [lookupA_updAssoc_ne hne _ s.owners]
          exact h

/-- C7: An owner with zero valid contributing instances during a recompute
(no attributed instance carrying bounding geometry) is absent from the
returned AABB map entirely: never emitted as a degenerate or zero-size box,
and its absence is silent (the pass still returns a total result). -/
theorem C7_empty_owner_excluded (psig : PrefsSig) (selected : List Obj)
    (insts : List Instance) (o : Obj) (hnd : (selected.map Obj.ptr).Nodup)
    (ho : o ∈ selected)
    (hno : ∀ inst ∈ insts, ¬(instOwnerPtr inst = some o.ptr ∧ worldCorners inst ≠ [])) :
    o.ptr ∉ (recompute psig selected insts).map Prod.fst := by
  intro hmem
  unfold recompute at hmem
  obtain ⟨st, hmemo, hex⟩ := key_mem_finalize hmem
  have h0 : lookupA o.ptr (initOwners selected) = some initAcc :=
    lookupA_initOwners (List.mem_map_of_mem _ ho)
  have hfin := loop_untouched psig.1 psig.2.1 psig.2.2 selected.length o.ptr insts
    (initPass psig selected) h0 hno
  have hkeys : ((passLoop psig.1 psig.2.1 psig.2.2 selected.length insts
      (initPass psig selected)).1).owners.map Prod.fst = selected.map Obj.ptr := by
    rw [passLoop_keys]
    exact initOwners_keys selected
  have hlk := mem_lookupA_of_nodup (hkeys ▸ hnd) hmemo
  rw [hfin] at hlk
  injection hlk with hlk
  rw [← hlk, excludedAcc_initAcc] at hex
  cases hex

/-- Witness for C7: owner B (pointer 2) is selected but only instances of
owner A are enumerated, so B is absent from the recomputed map. -/
theorem C7_witness :
    objB ∈ [objA, objB] ∧
    Obj.ptr objB ∉ (recompute (Mode.AUTO, 10000, 256) [objA, objB] [instA]).map Prod.fst :=
  ⟨by simp,
   C7_empty_owner_excluded (Mode.AUTO, 10000, 256) [objA, objB] [instA] objB
     (by decide) (by simp) (by decide)⟩

/-- Folding preserves well-formedness of every stored accumulator. -/
theorem passStep_wf (mode : Mode) (thr lim need : Nat) (inst : Instance) (s : PassState)
    (h : ∀ pa ∈ s.owners, WfAcc pa.2) :
    ∀ pa ∈ ((passStep mode thr lim need inst s).state).owners, WfAcc pa.2 := by
  rcases passStep_shape mode thr lim need inst s with ⟨heq, -⟩ |
    ⟨owner, st, -, -, hlk, b, -, hcases⟩
  · rw [heq]
    exact h
  · have hst : WfAcc st := h _ (lookupA_mem hlk)
    rcases hcases with ⟨-, -, ⟨heq, -⟩ | ⟨heq, -⟩⟩ | ⟨-, -, heq⟩ |
      ⟨bbl, -, -, -, ⟨-, ⟨heq, -⟩ | ⟨heq, -⟩⟩ | ⟨-, heq⟩⟩ <;> rw [heq] <;>
      simp only [StepOut.state]
    · exact h
    · exact h
    · exact h
    all_goals
      intro pa hpa
      rcases mem_updAssoc _ hpa with hpa' | ⟨a, ha, rfl⟩
      · exact h pa hpa'
      · rw [hlk] at ha
        injection ha with ha
        subst ha
        have hw := foldCorners_wf inst.matrix_world bbl st.mn st.mx hst.1 hst.2.1 hst.2.2
        exact ⟨hw.1, hw.2.1, hw.2.2⟩

/-- The loop preserves well-formedness of every stored accumulator. -/
theorem passLoop_wf (mode : Mode) (thr lim need : Nat) :
    ∀ (insts : List Instance) (s : PassState), (∀ pa ∈ s.owners, WfAcc pa.2) →
      ∀ pa ∈ ((passLoop mode thr lim need insts s).1).owners, WfAcc pa.2 := by
  intro insts
  induction insts with
  | nil => intro s h; exact h
  | cons inst rest ih =>
    intro s h
    have hw := passStep_wf mode thr lim need inst s h
    cases hstep : passStep mode thr lim need inst s with
    | cont s1 =>
      rw [hstep] at hw
      simp only [passLoop, hstep]
      exact ih s1 hw
    | halt s1 =>
      rw [hstep] at hw
      simp only [passLoop, hstep]
      exact hw

/-- C10: Every AABB present in the map produced by a recompute satisfies
`min[i] ≤ max[i]` in all three components and both corners are finite: an
owner is emitted only after at least one corner fold replaced the
`inf` / `-inf` sentinels, and folds only ever widen the box. -/
theorem C10_emitted_boxes_wf (psig : PrefsSig) (selected : List Obj)
    (insts : List Instance) :
    ∀ ptr box, (ptr, box) ∈ recompute psig selected insts →
      (∃ a b : ℚ, box.1.x = XQ.fin a ∧ box.2.x = XQ.fin b ∧ a ≤ b) ∧
      (∃ a b : ℚ, box.1.y = XQ.fin a ∧ box.2.y = XQ.fin b ∧ a ≤ b) ∧
      (∃ a b : ℚ, box.1.z = XQ.fin a ∧ box.2.z = XQ.fin b ∧ a ≤ b) := by
  intro ptr box hmem
  unfold recompute at hmem
  obtain ⟨st, hmemo, hex, hmn, hmx⟩ := mem_finalize hmem
  have hinit : ∀ pa ∈ (initPass psig selected).owners, WfAcc pa.2 := by
    intro pa hpa
    simp only [initPass, initOwners, List.mem_map] at hpa
    obtain ⟨o, -, rfl⟩ := hpa
    exact ⟨Or.inl ⟨rfl, rfl⟩, Or.inl ⟨rfl, rfl⟩, Or.inl ⟨rfl, rfl⟩⟩
  have hwf : WfAcc st :=
    passLoop_wf psig.1 psig.2.1 psig.2.2 selected.length insts (initPass psig selected)
      hinit _ hmemo
  simp only [excludedAcc, Bool.or_eq_false_iff, decide_eq_false_iff_not] at hex
  obtain ⟨⟨⟨⟨⟨hx1, hy1⟩, hz1⟩, hx2⟩, hy2⟩, hz2⟩ := hex
  rw [← hmn, ← hmx]
  refine ⟨?_, ?_, ?_⟩
  · rcases hwf.1 with ⟨hp, -⟩ | hfin
    · exact absurd hp hx1
    · exact hfin
  · rcases hwf.2.1 with ⟨hp, -⟩ | hfin
    · exact absurd hp hy1
    · exact hfin
  · rcases hwf.2.2 with ⟨hp, -⟩ | hfin
    · exact absurd hp hz1
    · exact hfin

/-- Witness for C10 at the concrete three-cube scenario: the emitted box of
owner A is finite and ordered in every component. -/
theorem C10_witness :
    (∃ a b : ℚ, XQ.fin 0 = XQ.fin a ∧ XQ.fin 3 = XQ.fin b ∧ a ≤ b) ∧
    (∃ a b : ℚ, XQ.fin 0 = XQ.fin a ∧ XQ.fin 1 = XQ.fin b ∧ a ≤ b) ∧
    (∃ a b : ℚ, XQ.fin 0 = XQ.fin a ∧ XQ.fin 1 = XQ.fin b ∧ a ≤ b) := by
  refine C10_emitted_boxes_wf (Mode.ACCURATE, 10000, 256) [objA]
    [instAt 0, instAt 1, instAt 2] 1
    (⟨XQ.fin 0, XQ.fin 0, XQ.fin 0⟩, ⟨XQ.fin 3, XQ.fin 1, XQ.fin 1⟩) ?_
  rw [show recompute (Mode.ACCURATE, 10000, 256) [objA] [instAt 0, instAt 1, instAt 2] =
      [(1, (⟨XQ.fin 0, XQ.fin 0, XQ.fin 0⟩, ⟨XQ.fin 3, XQ.fin 1, XQ.fin 1⟩))] from
    by with_unfolding_all rfl]
  exact List.mem_singleton.mpr rfl

/-! ### The SAMPLED-mode pass: per-owner caps and early halt -/

theorem filter_done_split (k : Nat) (a : Acc) (l1 l2 : List (Nat × Acc)) :
    ((l1 ++ (k, a) :: l2).filter (fun pa => pa.2.done)).length =
      (l1.filter (fun pa => pa.2.done)).length + (if a.done then 1 else 0) +
      (l2.filter (fun pa => pa.2.done)).length := by
  rw [List.filter_append, List.filter_cons]
  split <;> simp <;> omega

theorem sampled_step (thr lim need : Nat) (inst : Instance) (s : PassState)
    (hinv : SampInv lim need s) :
    SampInv lim need ((passStep Mode.SAMPLED thr lim need inst s).state) := by
  obtain ⟨hsamp, hlen, hod, hents⟩ := hinv
  have hb_eq : (if Mode.SAMPLED = Mode.AUTO ∧ s.sampling = false ∧ thr ≤ s.total_hits
      then true else s.sampling) = true := by
    rw [if_neg]
    · exact hsamp
    · rintro ⟨hmode, -⟩
      exact absurd hmode (by simp)
  rcases passStep_shape Mode.SAMPLED thr lim need inst s with ⟨heq, -⟩ |
    ⟨owner, st, -, -, hlk, b, hb, hcases⟩
  · rw [heq]
    exact ⟨hsamp, hlen, hod, hents⟩
  · have hbt : b = true := by rw [hb, hb_eq]
    subst hbt
    rcases hcases with ⟨-, -, ⟨heq, -⟩ | ⟨heq, -⟩⟩ | ⟨-, -, heq⟩ |
      ⟨bbl, hnd, -, -, hfold⟩
    · rw [heq]
      exact ⟨rfl, hlen, hod, hents⟩
    · rw [heq]
      exact ⟨rfl, hlen, hod, hents⟩
    · rw [heq]
      exact ⟨rfl, hlen, hod, hents⟩
    · have hdf : st.done = false := by
        cases hdone : st.done
        · rfl
        · exact absurd ⟨rfl, hdone⟩ hnd
      have hcnt : st.count < lim := (hents _ (lookupA_mem hlk)).2 hdf
      obtain ⟨l1, l2, hL, hne1, hupd⟩ := lookupA_split hlk
      have hodsplit : s.owners_done =
          (l1.filter (fun pa => pa.2.done)).length +
          (l2.filter (fun pa => pa.2.done)).length := by
        rw [hod, hL, filter_done_split, hdf]
        simp
      have hlensplit : need = l1.length + 1 + l2.length := by
        rw [hlen, hL]
        simp [List.length_append]
        omega
      have hmemold : ∀ pa, pa ∈ l1 ∨ pa ∈ l2 → pa ∈ s.owners := by
        intro pa hpa
        rw [hL]
        rcases hpa with h | h
        · exact List.mem_append_left _ h
        · exact List.mem_append_right _ (List.mem_cons_of_mem _ h)
      rcases hfold with ⟨⟨-, hcap⟩, hor⟩ | ⟨hncap, heq⟩
      · have hceq : st.count + 1 = lim := le_antisymm hcnt hcap
        have hmain : SampInv lim need
            ⟨true, s.total_hits + 1, s.owners_done + 1,
             updAssoc owner.ptr (fun _ =>
               ⟨(foldCorners inst.matrix_world bbl st.mn st.mx).1,
                (foldCorners inst.matrix_world bbl st.mn st.mx).2,
                st.count + 1, true⟩) s.owners⟩ := by
          refine ⟨rfl, ?_, ?_, ?_⟩
          · show need = (updAssoc owner.ptr _ s.owners).length
            rw [hupd, hlensplit]
            simp [List.length_append]
            omega
          · show s.owners_done + 1 = _
            rw [hupd, filter_done_split, hodsplit]
            simp
            try omega
          · intro pa hpa
            rw [hupd] at hpa
            rcases List.mem_append.mp hpa with h1 | h2
            · exact hents pa (hmemold pa (Or.inl h1))
            · rcases List.mem_cons.mp h2 with rfl | h3
              · constructor
                · intro _
                  exact hceq
                · intro hfalse
                  cases hfalse
              · exact hents pa (hmemold pa (Or.inr h3))
        rcases hor with ⟨heq, -⟩ | ⟨heq, -⟩ <;> rw [heq] <;> exact hmain
      · have hlt : st.count + 1 < lim := by
          rcases Nat.lt_or_ge (st.count + 1) lim with h | h
          · exact h
          · exact absurd ⟨rfl, h⟩ hncap
        rw [heq]
        simp only [StepOut.state]
        refine ⟨rfl, ?_, ?_, ?_⟩
        · show need = (updAssoc owner.ptr _ s.owners).length
          rw [hupd, hlensplit]
          simp [List.length_append]
          omega
        · show s.owners_done = _
          rw [hupd, filter_done_split, hodsplit]
          simp [hdf]
        · intro pa hpa
          rw [hupd] at hpa
          rcases List.mem_append.mp hpa with h1 | h2
          · exact hents pa (hmemold pa (Or.inl h1))
          · rcases List.mem_cons.mp h2 with rfl | h3
            · constructor
              · intro htrue
                rw [hdf] at htrue
                cases htrue
              · intro _
                exact hlt
            · exact hents pa (hmemold pa (Or.inr h3))

theorem sampled_loop (thr lim need : Nat) :
    ∀ (insts : List Instance) (s : PassState), SampInv lim need s →
      SampInv lim need ((passLoop Mode.SAMPLED thr lim need insts s).1) ∧
      ((passLoop Mode.SAMPLED thr lim need insts s).2 ≠ [] →
        need ≤ ((passLoop Mode.SAMPLED thr lim need insts s).1).owners_done) := by
  intro insts
  induction insts with
  | nil =>
    intro s h
    exact ⟨h, fun hne => absurd rfl hne⟩
  | cons inst rest ih =>
    intro s h
    have hstep := sampled_step thr lim need inst s h
    cases heq : passStep Mode.SAMPLED thr lim need inst s with
    | cont s1 =>
      rw [heq] at hstep
      simp only [passLoop, heq]
      exact ih s1 hstep
    | halt s1 =>
      rw [heq] at hstep
      simp only [passLoop, heq]
      exact ⟨hstep, fun _ => passStep_halt_od Mode.SAMPLED thr lim need inst s s1 heq⟩

theorem exists_ptr_of_matchedB {ks : List Nat} {inst : Instance}
    (h : matchedB ks inst = true) : ∃ p, instOwnerPtr inst = some p ∧ p ∈ ks := by
  cases hbase : instBase inst with
  | none =>
    simp only [matchedB, hbase] at h
    exact Bool.noConfusion h
  | some base =>
    cases howner : instOwner inst with
    | none =>
      simp only [matchedB, hbase, howner] at h
      exact Bool.noConfusion h
    | some o =>
      simp only [matchedB, hbase, howner, decide_eq_true_iff] at h
      exact ⟨o.ptr, by simp [instOwnerPtr, hbase, howner], h⟩

/-- The moment every selected owner has reached its limit, the SAMPLED-mode
loop halts: whatever prefix `l1` brought every owner to `done`, the next
attributed instance triggers the `break` (line 313-314 of the source, or
the earlier break at line 339-340 inside `l1` itself), so the instances
after it are never visited. -/
theorem sampled_halt_after_saturation (thr lim need : Nat) :
    ∀ (l1 : List Instance) (s : PassState), SampInv lim need s →
      ∀ (inst : Instance) (l2 : List Instance),
      (∀ pa ∈ ((passLoop Mode.SAMPLED thr lim need l1 s).1).owners,
        pa.2.done = true) →
      matchedB (((passLoop Mode.SAMPLED thr lim need l1 s).1).owners.map Prod.fst)
        inst = true →
      ∃ pre, (passLoop Mode.SAMPLED thr lim need (l1 ++ inst :: l2) s).2 = pre ++ l2 := by
  intro l1
  induction l1 with
  | nil =>
    intro s hinv inst l2 hdone hmatch
    obtain ⟨hsamp, hlen, hod, hents⟩ := hinv
    have hdone' : ∀ pa ∈ s.owners, pa.2.done = true := fun pa hpa => hdone pa hpa
    have hmatch' : matchedB (s.owners.map Prod.fst) inst = true := hmatch
    obtain ⟨p, hp, hpks⟩ := exists_ptr_of_matchedB hmatch'
    have hfall : s.owners.filter (fun pa => pa.2.done) = s.owners :=
      List.filter_eq_self.mpr (fun pa hpa => by simpa using hdone' pa hpa)
    have hodge : need ≤ s.owners_done := by
      rw [hod, hfall, ← hlen]
    rcases passStep_shape Mode.SAMPLED thr lim need inst s with ⟨heq, hnone⟩ |
      ⟨owner, st, -, hptr, hlk, b, hb, hcases⟩
    · have hsome := lookupA_isSome_iff.mpr hpks
      rw [hnone p hp] at hsome
      cases hsome
    · have hbt : b = true := by
        rw [hb, if_neg]
        · exact hsamp
        · rintro ⟨hmode, -⟩
          exact absurd hmode (by simp)
      have hdn : st.done = true := hdone' _ (lookupA_mem hlk)
      rcases hcases with ⟨-, -, ⟨heq, hno⟩ | ⟨heq, -⟩⟩ | ⟨hcontra, -, -⟩ |
        ⟨bbl, hcontra, -, -, -⟩
      · exact absurd hodge hno
      · refine ⟨[], ?_⟩
        show (passLoop Mode.SAMPLED thr lim need (inst :: l2) s).2 = [] ++ l2
        simp only [passLoop, heq, List.nil_append]
      · exact absurd ⟨hbt, hdn⟩ hcontra
      · exact absurd ⟨hbt, hdn⟩ hcontra
  | cons i l1' ih =>
    intro s hinv inst l2 hdone hmatch
    have hstep := sampled_step thr lim need i s hinv
    cases heq : passStep Mode.SAMPLED thr lim need i s with
    | cont s' =>
      rw [heq] at hstep
      simp only [passLoop, heq] at hdone hmatch
      obtain ⟨pre, hpre⟩ := ih s' hstep inst l2 hdone hmatch
      refine ⟨pre, ?_⟩
      show (passLoop Mode.SAMPLED thr lim need (i :: (l1' ++ inst :: l2)) s).2 = pre ++ l2
      simp only [passLoop, heq]
      exact hpre
    | halt s' =>
      refine ⟨l1' ++ [inst], ?_⟩
      show (passLoop Mode.SAMPLED thr lim need (i :: (l1' ++ inst :: l2)) s).2 = _
      simp only [passLoop, heq]
      simp

/-- C3: Under Sampled mode with `sample_limit_per_owner = K ≥ 1`, a
recompute pass folds at most K instances into each owner's accumulator
(an owner stops accepting instances once its count reaches K), and the
instance-enumeration loop halts early once every selected owner has
reached its limit: after any prefix that leaves every owner saturated, the
next attributed instance triggers the break and the instances beyond it
are never visited; conversely, instances are left unvisited only when
every owner has reached its limit. -/
theorem C3_sampled_caps (psig : PrefsSig) (selected : List Obj) (insts : List Instance)
    (hm : psig.1 = Mode.SAMPLED) (hk : 1 ≤ psig.2.2) :
    (∀ pa ∈ ((passLoop psig.1 psig.2.1 psig.2.2 selected.length insts
        (initPass psig selected)).1).owners, pa.2.count ≤ psig.2.2) ∧
    ((passLoop psig.1 psig.2.1 psig.2.2 selected.length insts
        (initPass psig selected)).2 ≠ [] →
      ∀ pa ∈ ((passLoop psig.1 psig.2.1 psig.2.2 selected.length insts
        (initPass psig selected)).1).owners,
        pa.2.done = true ∧ pa.2.count = psig.2.2) ∧
    (∀ (l1 : List Instance) (inst : Instance) (l2 : List Instance),
      insts = l1 ++ inst :: l2 →
      (∀ pa ∈ ((passLoop psig.1 psig.2.1 psig.2.2 selected.length l1
          (initPass psig selected)).1).owners, pa.2.done = true) →
      matchedB (selected.map Obj.ptr) inst = true →
      ∃ pre, (passLoop psig.1 psig.2.1 psig.2.2 selected.length insts
        (initPass psig selected)).2 = pre ++ l2) := by
  have hfilter0 : ∀ (l : List Obj),
      (((initOwners l).filter (fun pa => pa.2.done)).length) = 0 := by
    intro l
    induction l with
    | nil => rfl
    | cons o rest ihl => simpa [initOwners, initAcc, List.filter] using ihl
  have hinv0 : SampInv psig.2.2 selected.length (initPass psig selected) := by
    refine ⟨by simp [initPass, hm], by simp [initPass, initOwners], ?_, ?_⟩
    · show (0 : Nat) = ((initOwners selected).filter (fun pa => pa.2.done)).length
      rw [hfilter0 selected]
    · intro pa hpa
      simp only [initPass, initOwners, List.mem_map] at hpa
      obtain ⟨o, -, rfl⟩ := hpa
      constructor
      · intro hfalse
        cases hfalse
      · intro _
        exact hk
  rw [hm]
  obtain ⟨hinv, hhalt⟩ :=
    sampled_loop psig.2.1 psig.2.2 selected.length insts (initPass psig selected) hinv0
  obtain ⟨-, hlen, hod, hents⟩ := hinv
  refine ⟨?_, ?_, ?_⟩
  · intro pa hpa
    obtain ⟨hd, hnd⟩ := hents pa hpa
    cases hdone : pa.2.done
    · exact le_of_lt (hnd hdone)
    · exact le_of_eq (hd hdone)
  · intro hne pa hpa
    have hge := hhalt hne
    have hflen : (((passLoop Mode.SAMPLED psig.2.1 psig.2.2 selected.length insts
        (initPass psig selected)).1).owners.filter (fun pa => pa.2.done)).length =
        ((passLoop Mode.SAMPLED psig.2.1 psig.2.2 selected.length insts
          (initPass psig selected)).1).owners.length := by
      refine le_antisymm (List.length_filter_le _ _) ?_
      rw [← hlen, ← hod]
      exact hge
    have hall := List.filter_length_eq_length.mp hflen pa hpa
    obtain ⟨hd, -⟩ := hents pa hpa
    exact ⟨by simpa using hall, hd (by simpa using hall)⟩
  · intro l1 inst l2 hsplit hdonel1 hmatch
    subst hsplit
    have hkeys1 : ((passLoop Mode.SAMPLED psig.2.1 psig.2.2 selected.length l1
        (initPass psig selected)).1).owners.map Prod.fst = selected.map Obj.ptr := by
      rw [passLoop_keys]
      exact initOwners_keys selected
    exact sampled_halt_after_saturation psig.2.1 psig.2.2 selected.length l1
      (initPass psig selected) hinv0 inst l2 hdonel1 (by rw [hkeys1]; exact hmatch)

/-- Witness for C3: one owner, limit 1, three instances; the first instance
saturates the owner and the loop halts early, leaving `[instAt 1, instAt 2]`
unvisited (exhibited concretely); the saturation clause is also instantiated
at the prefix `[instAt 0]`. -/
theorem C3_witness :
    ((Mode.SAMPLED, 10000, 1) : PrefsSig).1 = Mode.SAMPLED ∧
    (passLoop Mode.SAMPLED 10000 1 1 [instAt 0, instAt 1, instAt 2]
        (initPass (Mode.SAMPLED, 10000, 1) [objA])).2 = [instAt 1, instAt 2] ∧
    (∀ pa ∈ ((passLoop Mode.SAMPLED 10000 1 1 [instAt 0, instAt 1, instAt 2]
        (initPass (Mode.SAMPLED, 10000, 1) [objA])).1).owners, pa.2.count ≤ 1) ∧
    ((passLoop Mode.SAMPLED 10000 1 1 [instAt 0, instAt 1, instAt 2]
        (initPass (Mode.SAMPLED, 10000, 1) [objA])).2 ≠ [] →
      ∀ pa ∈ ((passLoop Mode.SAMPLED 10000 1 1 [instAt 0, instAt 1, instAt 2]
        (initPass (Mode.SAMPLED, 10000, 1) [objA])).1).owners,
        pa.2.done = true ∧ pa.2.count = 1) ∧
    (∃ pre, (passLoop Mode.SAMPLED 10000 1 1 [instAt 0, instAt 1, instAt 2]
        (initPass (Mode.SAMPLED, 10000, 1) [objA])).2 = pre ++ [instAt 2]) := by
  have h := C3_sampled_caps (Mode.SAMPLED, 10000, 1) [objA] [instAt 0, instAt 1, instAt 2]
    rfl (by decide)
  refine ⟨rfl, by with_unfolding_all decide, h.1, h.2.1, ?_⟩
  exact h.2.2 [instAt 0] (instAt 1) [instAt 2] rfl (by with_unfolding_all decide)
    (by decide)

/-! ### The AUTO-mode pass -/

theorem matchedB_of_owner_ptr {inst : Instance} {p : Nat}
    (h : instOwnerPtr inst = some p) (ks : List Nat) :
    matchedB ks inst = decide (p ∈ ks) := by
  cases hbase : instBase inst with
  | none =>
    simp only [instOwnerPtr, hbase] at h
    exact Option.noConfusion h
  | some base =>
    cases howner : instOwner inst with
    | none =>
      simp only [instOwnerPtr, hbase, howner] at h
      exact Option.noConfusion h
    | some o =>
      simp only [instOwnerPtr, hbase, howner] at h
      injection h with h
      subst h
      simp only [matchedB, hbase, howner]

theorem matchedB_of_ptr_none {inst : Instance} (h : instOwnerPtr inst = none)
    (ks : List Nat) : matchedB ks inst = false := by
  cases hbase : instBase inst with
  | none => simp only [matchedB, hbase]
  | some base =>
    cases howner : instOwner inst with
    | none => simp only [matchedB, hbase, howner]
    | some o =>
      simp only [instOwnerPtr, hbase, howner] at h
      exact Option.noConfusion h

theorem cntOf_updAssoc_self {k : Nat} {l : List (Nat × Acc)} {st : Acc}
    (hlk : lookupA k l = some st) (f : Acc → Acc) :
    cntOf k (updAssoc k f l) = (f st).count := by
  simp [cntOf, lookupA_updAssoc_self hlk]

theorem cntOf_updAssoc_ne {k k' : Nat} (h : k' ≠ k) (f : Acc → Acc)
    (l : List (Nat × Acc)) : cntOf k' (updAssoc k f l) = cntOf k' l := by
  simp [cntOf, lookupA_updAssoc_ne h]

theorem cntOf_initOwners (p : Nat) (selected : List Obj) :
    cntOf p (initOwners selected) = 0 := by
  by_cases hmem : p ∈ selected.map Obj.ptr
  · simp [cntOf, lookupA_initOwners hmem, initAcc]
  · have : lookupA p (initOwners selected) = none := by
      rw [lookupA_eq_none_iff, initOwners_keys]
      exact hmem
    simp [cntOf, this]

/-- While no activation happens (fewer matched instances than the
threshold), the AUTO-mode pass behaves exactly like the accurate pass:
nothing is skipped, per-owner counts equal the attributed fold counts. -/
theorem auto_accurate_phase (thr lim need : Nat) (ks : List Nat) :
    ∀ (insts : List Instance) (s : PassState),
      s.owners.map Prod.fst = ks → s.sampling = false →
      s.total_hits + (insts.filter (matchedB ks)).length ≤ thr →
      ∃ s', passLoop Mode.AUTO thr lim need insts s = (s', []) ∧ s'.sampling = false ∧
        s'.owners.map Prod.fst = ks ∧
        s'.total_hits = s.total_hits + (insts.filter (foldsToB ks)).length ∧
        ∀ ptr, cntOf ptr s'.owners =
          cntOf ptr s.owners + (insts.filter (foldsToPtrB ks ptr)).length := by
  intro insts
  induction insts with
  | nil =>
    intro s hks hs _
    exact ⟨s, rfl, hs, hks, by simp, fun ptr => by simp⟩
  | cons inst rest ih =>
    intro s hks hs hbound
    rcases passStep_shape Mode.AUTO thr lim need inst s with ⟨heq, hnone⟩ |
      ⟨owner, st, -, hptr, hlk, b, hb, hcases⟩
    · have hm0 : matchedB ks inst = false := by
        cases hop : instOwnerPtr inst with
        | none => exact matchedB_of_ptr_none hop ks
        | some p =>
          rw [matchedB_of_owner_ptr hop ks]
          have := hnone p hop
          rw [lookupA_eq_none_iff, hks] at this
          simpa using this
      have hbound' : s.total_hits + (rest.filter (matchedB ks)).length ≤ thr := by
        rw [List.filter_cons, hm0] at hbound
        simpa using hbound
      obtain ⟨s', hloop, h1, h2, h3, h4⟩ := ih s hks hs hbound'
      refine ⟨s', by simp only [passLoop, heq, hloop], h1, h2, ?_, ?_⟩
      · rw [h3, List.filter_cons]
        simp [foldsToB, hm0]
      · intro ptr
        rw [h4 ptr, List.filter_cons]
        simp [foldsToPtrB, foldsToB, hm0]
    · have hmm : matchedB ks inst = true := by
        rw [matchedB_of_owner_ptr hptr ks]
        have : (lookupA owner.ptr s.owners).isSome = true := by rw [hlk]; rfl
        rw [lookupA_isSome_iff, hks] at this
        simpa using this
      have hheadM : s.total_hits + 1 + (rest.filter (matchedB ks)).length ≤ thr := by
        rw [List.filter_cons, hmm] at hbound
        simp only [if_pos] at hbound
        simpa [Nat.succ_add, Nat.add_comm, Nat.add_left_comm] using hbound
      have htlt : ¬ thr ≤ s.total_hits := by omega
      have hbf : b = false := by
        rw [hb, if_neg]
        · exact hs
        · rintro ⟨-, -, hc⟩
          exact htlt hc
      rcases hcases with ⟨hb1, -, -⟩ | ⟨-, hwc, heq⟩ | ⟨bbl, -, hnil, hwc, hfold⟩
      · rw [hbf] at hb1
        cases hb1
      · have hstate : ({ s with sampling := b } : PassState) = s := by
          rw [hbf, ← hs]
        have hbound' : s.total_hits + (rest.filter (matchedB ks)).length ≤ thr := by omega
        obtain ⟨s', hloop, h1, h2, h3, h4⟩ := ih s hks hs hbound'
        have hwcf : foldsToB ks inst = false := by
          simp [foldsToB, hwc]
        refine ⟨s', ?_, h1, h2, ?_, ?_⟩
        · have hstep2 : passLoop Mode.AUTO thr lim need (inst :: rest) s =
              passLoop Mode.AUTO thr lim need rest s := by
            simp only [passLoop, heq, hstate]
          rw [hstep2, hloop]
        · rw [h3, List.filter_cons, hwcf]
          simp
        · intro ptr
          rw [h4 ptr, List.filter_cons]
          simp [foldsToPtrB, hwcf]
      · rcases hfold with ⟨⟨hb1, -⟩, -⟩ | ⟨-, heq⟩
        · rw [hbf] at hb1
          cases hb1
        · have hwcf : foldsToB ks inst = true := by
            simp only [foldsToB, hmm, Bool.true_and, decide_eq_true_iff]
            rw [hwc]
            simpa using hnil
          have hkeys2 : (updAssoc owner.ptr (fun _ =>
              ⟨(foldCorners inst.matrix_world bbl st.mn st.mx).1,
               (foldCorners inst.matrix_world bbl st.mn st.mx).2,
               st.count + 1, st.done⟩) s.owners).map Prod.fst = ks := by
            rw [updAssoc_keys]
            exact hks
          obtain ⟨s', hloop, h1, h2, h3, h4⟩ := ih
            ⟨b, s.total_hits + 1, s.owners_done,
             updAssoc owner.ptr (fun _ =>
               ⟨(foldCorners inst.matrix_world bbl st.mn st.mx).1,
                (foldCorners inst.matrix_world bbl st.mn st.mx).2,
                st.count + 1, st.done⟩) s.owners⟩ hkeys2 hbf hheadM
          refine ⟨s', ?_, h1, h2, ?_, ?_⟩
          · have hstep2 : passLoop Mode.AUTO thr lim need (inst :: rest) s =
                passLoop Mode.AUTO thr lim need rest
                  ⟨b, s.total_hits + 1, s.owners_done,
                   updAssoc owner.ptr (fun _ =>
                     ⟨(foldCorners inst.matrix_world bbl st.mn st.mx).1,
                      (foldCorners inst.matrix_world bbl st.mn st.mx).2,
                      st.count + 1, st.done⟩) s.owners⟩ := by
              simp only [passLoop, heq]
            rw [hstep2, hloop]
          · rw [h3, List.filter_cons, hwcf]
            simp only [List.length_cons]
            simp
            try omega
          · intro ptr
            rw [h4 ptr, List.filter_cons]
            by_cases hpp : ptr = owner.ptr
            · subst hpp
              have hhead : foldsToPtrB ks owner.ptr inst = true := by
                simp [foldsToPtrB, hwcf, hptr]
              rw [hhead]
              have hupd : cntOf owner.ptr (updAssoc owner.ptr (fun _ =>
                  ⟨(foldCorners inst.matrix_world bbl st.mn st.mx).1,
                   (foldCorners inst.matrix_world bbl st.mn st.mx).2,
                   st.count + 1, st.done⟩) s.owners) = st.count + 1 :=
                cntOf_updAssoc_self hlk _
              rw [hupd]
              have hcs : cntOf owner.ptr s.owners = st.count := by
                simp [cntOf, hlk]
              rw [hcs]
              simp only [List.length_cons]
              simp
              try omega
            · have hhead : foldsToPtrB ks ptr inst = false := by
                simp only [foldsToPtrB, Bool.and_eq_false_iff]
                right
                simp only [decide_eq_false_iff_not]
                rw [hptr]
                intro hcontra
                injection hcontra with hcontra
                exact hpp hcontra.symm
              rw [hhead]
              have : cntOf ptr (updAssoc owner.ptr (fun _ =>
                  ⟨(foldCorners inst.matrix_world bbl st.mn st.mx).1,
                   (foldCorners inst.matrix_world bbl st.mn st.mx).2,
                   st.count + 1, st.done⟩) s.owners) = cntOf ptr s.owners :=
                cntOf_updAssoc_ne hpp _ s.owners
              rw [this]
              simp

/-- If the AUTO-mode pass finishes with sampling still off, it folded every
attributed-with-geometry instance and its fold count never reached past the
threshold. -/
theorem auto_bounded_no_sampling (thr lim need : Nat) (ks : List Nat) :
    ∀ (insts : List Instance) (s : PassState),
      s.owners.map Prod.fst = ks → s.sampling = false → s.total_hits ≤ thr →
      ((passLoop Mode.AUTO thr lim need insts s).1).sampling = false →
      (passLoop Mode.AUTO thr lim need insts s).1.total_hits =
        s.total_hits + (insts.filter (foldsToB ks)).length ∧
      (passLoop Mode.AUTO thr lim need insts s).1.total_hits ≤ thr := by
  intro insts
  induction insts with
  | nil =>
    intro s _ _ hle _
    exact ⟨by simp [passLoop], hle⟩
  | cons inst rest ih =>
    intro s hks hs hle hfin
    rcases passStep_shape Mode.AUTO thr lim need inst s with ⟨heq, hnone⟩ |
      ⟨owner, st, -, hptr, hlk, b, hb, hcases⟩
    · have hm0 : matchedB ks inst = false := by
        cases hop : instOwnerPtr inst with
        | none => exact matchedB_of_ptr_none hop ks
        | some p =>
          rw [matchedB_of_owner_ptr hop ks]
          have hn := hnone p hop
          rw [lookupA_eq_none_iff, hks] at hn
          simpa using hn
      have hwcf : foldsToB ks inst = false := by
        simp [foldsToB, hm0]
      simp only [passLoop, heq] at hfin ⊢
      obtain ⟨h1, h2⟩ := ih s hks hs hle hfin
      refine ⟨?_, h2⟩
      rw [h1, List.filter_cons, hwcf]
      simp
    · have hbf : b = false := by
        cases hbb : b
        · rfl
        · exfalso
          subst hbb
          rcases hcases with ⟨-, -, ⟨heq, -⟩ | ⟨heq, -⟩⟩ | ⟨-, -, heq⟩ |
            ⟨bbl, -, -, -, ⟨-, ⟨heq, -⟩ | ⟨heq, -⟩⟩ | ⟨-, heq⟩⟩ <;>
            simp only [passLoop, heq] at hfin <;>
            first
            | (rw [passLoop_sampling_mono Mode.AUTO thr lim need rest _ rfl] at hfin
               cases hfin)
            | exact Bool.noConfusion hfin
      have htlt : ¬ thr ≤ s.total_hits := by
        intro hge
        have : b = true := by
          rw [hb, if_pos ⟨rfl, hs, hge⟩]
        rw [hbf] at this
        cases this
      rcases hcases with ⟨hb1, -, -⟩ | ⟨-, hwc, heq⟩ | ⟨bbl, -, hnil, hwc, hfold⟩
      · rw [hbf] at hb1
        cases hb1
      · have hstate : ({ s with sampling := b } : PassState) = s := by
          rw [hbf, ← hs]
        have hwcf : foldsToB ks inst = false := by
          simp [foldsToB, hwc]
        simp only [passLoop, heq, hstate] at hfin ⊢
        obtain ⟨h1, h2⟩ := ih s hks hs hle hfin
        refine ⟨?_, h2⟩
        rw [h1, List.filter_cons, hwcf]
        simp
      · rcases hfold with ⟨⟨hb1, -⟩, -⟩ | ⟨-, heq⟩
        · rw [hbf] at hb1
          cases hb1
        · have hwcf : foldsToB ks inst = true := by
            have hmm : matchedB ks inst = true := by
              rw [matchedB_of_owner_ptr hptr ks]
              have hsome : (lookupA owner.ptr s.owners).isSome = true := by
                rw [hlk]
                rfl
              rw [lookupA_isSome_iff, hks] at hsome
              simpa using hsome
            simp only [foldsToB, hmm, Bool.true_and, decide_eq_true_iff]
            rw [hwc]
            simpa using hnil
          have hkeys2 : (updAssoc owner.ptr (fun _ =>
              ⟨(foldCorners inst.matrix_world bbl st.mn st.mx).1,
               (foldCorners inst.matrix_world bbl st.mn st.mx).2,
               st.count + 1, st.done⟩) s.owners).map Prod.fst = ks := by
            rw [updAssoc_keys]
            exact hks
          simp only [passLoop, heq] at hfin ⊢
          obtain ⟨h1, h2⟩ := ih
            ⟨b, s.total_hits + 1, s.owners_done,
             updAssoc owner.ptr (fun _ =>
               ⟨(foldCorners inst.matrix_world bbl st.mn st.mx).1,
                (foldCorners inst.matrix_world bbl st.mn st.mx).2,
                st.count + 1, st.done⟩) s.owners⟩ hkeys2 hbf (by simpa using htlt) hfin
          refine ⟨?_, h2⟩
          rw [h1, List.filter_cons, hwcf]
          simp only [List.length_cons]
          simp
          try omega

/-- C4 (amended): In Auto mode the pass starts in accurate behavior; the
switch into sampled behavior is one-directional; a frame whose attributed
instance count does not exceed the threshold is processed exhaustively
(every owner's count equals its attributed fold count and sampling stays
off); and a frame whose folded instance count exceeds the threshold ends
with sampling active. (The original claim's further consequence — that such
a frame leaves at least one owner's result non-exhaustive — is false; see
the counterexample.) -/
theorem C4_auto_mode (psig : PrefsSig) (selected : List Obj) (insts : List Instance)
    (hm : psig.1 = Mode.AUTO) :
    (initPass psig selected).sampling = false ∧
    (∀ (insts' : List Instance) (s : PassState), s.sampling = true →
      ((passLoop Mode.AUTO psig.2.1 psig.2.2 selected.length insts' s).1).sampling = true) ∧
    ((insts.filter (matchedB (selected.map Obj.ptr))).length ≤ psig.2.1 →
      ((passLoop Mode.AUTO psig.2.1 psig.2.2 selected.length insts
          (initPass psig selected)).1).sampling = false ∧
      ∀ ptr, cntOf ptr ((passLoop Mode.AUTO psig.2.1 psig.2.2 selected.length insts
          (initPass psig selected)).1).owners =
        (insts.filter (foldsToPtrB (selected.map Obj.ptr) ptr)).length) ∧
    (psig.2.1 < (insts.filter (foldsToB (selected.map Obj.ptr))).length →
      ((passLoop Mode.AUTO psig.2.1 psig.2.2 selected.length insts
          (initPass psig selected)).1).sampling = true) := by
  have hks : (initPass psig selected).owners.map Prod.fst = selected.map Obj.ptr := by
    simp only [initPass]
    exact initOwners_keys selected
  have hs0 : (initPass psig selected).sampling = false := by
    simp [initPass, hm]
  refine ⟨hs0, ?_, ?_, ?_⟩
  · intro insts' s hs
    exact passLoop_sampling_mono Mode.AUTO psig.2.1 psig.2.2 selected.length insts' s hs
  · intro hbound
    obtain ⟨s', hloop, h1, -, -, h4⟩ := auto_accurate_phase psig.2.1 psig.2.2
      selected.length (selected.map Obj.ptr) insts (initPass psig selected) hks hs0
      (by simpa [initPass] using hbound)
    rw [hloop]
    refine ⟨h1, fun ptr => ?_⟩
    have h4' := h4 ptr
    have hz : cntOf ptr (initPass psig selected).owners = 0 := cntOf_initOwners ptr selected
    rw [hz] at h4'
    simpa using h4'
  · intro hgt
    cases hfin : ((passLoop Mode.AUTO psig.2.1 psig.2.2 selected.length insts
        (initPass psig selected)).1).sampling with
    | true => rfl
    | false =>
      exfalso
      obtain ⟨h1, h2⟩ := auto_bounded_no_sampling psig.2.1 psig.2.2 selected.length
        (selected.map Obj.ptr) insts (initPass psig selected) hks hs0
        (Nat.zero_le _) hfin
      rw [h1] at h2
      simp only [initPass] at h2
      omega

/-- Witness for C4 at a small concrete frame: one owner, one instance,
default AUTO settings. -/
theorem C4_witness :
    (initPass (Mode.AUTO, 10000, 256) [objA]).sampling = false ∧
    (∀ (insts' : List Instance) (s : PassState), s.sampling = true →
      ((passLoop Mode.AUTO 10000 256 1 insts' s).1).sampling = true) ∧
    (([instA].filter (matchedB ([objA].map Obj.ptr))).length ≤ 10000 →
      ((passLoop Mode.AUTO 10000 256 1 [instA]
          (initPass (Mode.AUTO, 10000, 256) [objA])).1).sampling = false ∧
      ∀ ptr, cntOf ptr ((passLoop Mode.AUTO 10000 256 1 [instA]
          (initPass (Mode.AUTO, 10000, 256) [objA])).1).owners =
        ([instA].filter (foldsToPtrB ([objA].map Obj.ptr) ptr)).length) ∧
    (10000 < ([instA].filter (foldsToB ([objA].map Obj.ptr))).length →
      ((passLoop Mode.AUTO 10000 256 1 [instA]
          (initPass (Mode.AUTO, 10000, 256) [objA])).1).sampling = true) :=
  C4_auto_mode (Mode.AUTO, 10000, 256) [objA] [instA] rfl

set_option maxRecDepth 100000 in
/-- Counterexample to C4 as stated: with `auto_threshold = 1000` (its
minimum) and `sample_limit_per_owner = 256` (its default), a frame of 1001
instances of a single owner exceeds the threshold, yet after the pass the
owner's folded count equals its full attributed instance count — no owner's
result reflects non-exhaustive (sampled) accumulation, because the per-owner
cap only applies to folds made after the switch. -/
theorem C4_counterexample :
    1000 < ((ceInsts.filter (matchedB [1])).length) ∧
    ∀ pa ∈ ((passLoop Mode.AUTO 1000 256 1 ceInsts (initPass cePsig [objA])).1).owners,
      (ceInsts.filter (foldsToPtrB [1] pa.1)).length ≤ pa.2.count := by
  constructor
  · decide
  · decide

/-! ### The batch builder -/

theorem add_box_pos (b : Batch) (mn mx : Vec3) :
    (add_box b mn mx).pos = b.pos ++ boxVerts mn mx := rfl

theorem add_box_idx (b : Batch) (mn mx : Vec3) :
    (add_box b mn mx).idx = b.idx ++ _BOX_EDGES.map (fun e =>
      (b.pos.length + e.1, b.pos.length + e.2)) := rfl

theorem appendBoxes_nil (b : Batch) : appendBoxes b [] = b := rfl

theorem appendBoxes_cons (b : Batch) (it : Vec3 × Vec3) (items : List (Vec3 × Vec3)) :
    appendBoxes b (it :: items) = appendBoxes (add_box b it.1 it.2) items := rfl

theorem appendBoxes_append (b : Batch) (l1 l2 : List (Vec3 × Vec3)) :
    appendBoxes b (l1 ++ l2) = appendBoxes (appendBoxes b l1) l2 := by
  simp [appendBoxes, List.foldl_append]

theorem appendBoxes_pos_length :
    ∀ (items : List (Vec3 × Vec3)) (b : Batch),
      (appendBoxes b items).pos.length = b.pos.length + 8 * items.length := by
  intro items
  induction items with
  | nil => intro b; simp [appendBoxes]
  | cons it rest ih =>
    intro b
    rw [appendBoxes_cons, ih]
    simp [add_box, boxVerts]
    omega

theorem appendBoxes_idx_length :
    ∀ (items : List (Vec3 × Vec3)) (b : Batch),
      (appendBoxes b items).idx.length = b.idx.length + 12 * items.length := by
  intro items
  induction items with
  | nil => intro b; simp [appendBoxes]
  | cons it rest ih =>
    intro b
    rw [appendBoxes_cons, ih]
    simp [add_box, _BOX_EDGES]
    omega

theorem appendBoxes_idx_mem :
    ∀ (items : List (Vec3 × Vec3)) (p : Nat × Nat),
      p ∈ (appendBoxes ⟨[], []⟩ items).idx →
      ∃ i, i < items.length ∧ 8 * i ≤ p.1 ∧ p.1 < 8 * i + 8 ∧
        8 * i ≤ p.2 ∧ p.2 < 8 * i + 8 := by
  intro items
  induction items using List.reverseRecOn with
  | nil => intro p hp; cases hp
  | append_singleton l it ih =>
    intro p hp
    rw [appendBoxes_append, appendBoxes_cons, appendBoxes_nil, add_box_idx] at hp
    rcases List.mem_append.mp hp with hold | hnew
    · obtain ⟨i, hi, hb⟩ := ih p hold
      refine ⟨i, ?_, hb⟩
      simp only [List.length_append, List.length_cons, List.length_nil]
      omega
    · obtain ⟨e, he, rfl⟩ := List.mem_map.mp hnew
      have he8 : e.1 < 8 ∧ e.2 < 8 := by
        have hall : ∀ e ∈ _BOX_EDGES, e.1 < 8 ∧ e.2 < 8 := by decide
        exact hall e he
      have hlen : (appendBoxes ⟨[], []⟩ l).pos.length = 8 * l.length := by
        rw [appendBoxes_pos_length]
        simp
      refine ⟨l.length, ?_, ?_, ?_, ?_, ?_⟩ <;>
        simp only [hlen, List.length_append, List.length_cons, List.length_nil] <;>
        omega

theorem buildFold_eq (aep : Option Nat) :
    ∀ (aabbs : List (Nat × (Vec3 × Vec3))) (sel act : Batch),
      buildFold aep aabbs sel act =
        (appendBoxes sel
          ((aabbs.filter (fun it => !(isActivePtr aep it.1))).map Prod.snd),
         appendBoxes act
          ((aabbs.filter (fun it => isActivePtr aep it.1)).map Prod.snd)) := by
  intro aabbs
  induction aabbs with
  | nil => intro sel act; simp [buildFold, appendBoxes]
  | cons item rest ih =>
    intro sel act
    obtain ⟨p, mn, mx⟩ := item
    cases hact : isActivePtr aep p with
    | true =>
      simp only [buildFold, hact, if_pos, List.filter_cons]
      rw [ih]
      simp [hact, appendBoxes_cons]
    | false =>
      simp only [buildFold, hact, List.filter_cons]
      rw [if_neg (by simp [hact])]
      rw [ih]
      simp [hact, appendBoxes_cons]

/-- C8: `_build_batches` splits the AABB map into two disjoint batches —
the active owner's box (when its pointer matches) versus every other box;
each box contributes exactly 8 vertices and 12 index pairs, the pairs being
`_BOX_EDGES` offset by the number of vertices already in the batch, so each
index pair addresses two vertices of its own box inside one contiguous
buffer; an empty AABB map yields `(none, none)` rather than empty
batches. -/
theorem C8_build_batches (aabbs : List (Nat × (Vec3 × Vec3))) (active_eval_ptr : Option Nat) :
    (_build_batches [] active_eval_ptr = (none, none)) ∧
    (_build_batches aabbs active_eval_ptr =
      (toBatch (appendBoxes ⟨[], []⟩
         ((aabbs.filter (fun it => !(isActivePtr active_eval_ptr it.1))).map Prod.snd)),
       toBatch (appendBoxes ⟨[], []⟩
         ((aabbs.filter (fun it => isActivePtr active_eval_ptr it.1)).map Prod.snd)))) ∧
    (∀ (items : List (Vec3 × Vec3)) (it : Vec3 × Vec3),
      appendBoxes ⟨[], []⟩ (items ++ [it]) =
        ⟨(appendBoxes ⟨[], []⟩ items).pos ++ boxVerts it.1 it.2,
         (appendBoxes ⟨[], []⟩ items).idx ++ _BOX_EDGES.map (fun e =>
           ((appendBoxes ⟨[], []⟩ items).pos.length + e.1,
            (appendBoxes ⟨[], []⟩ items).pos.length + e.2))⟩) ∧
    (∀ items : List (Vec3 × Vec3),
      (appendBoxes ⟨[], []⟩ items).pos.length = 8 * items.length ∧
      (appendBoxes ⟨[], []⟩ items).idx.length = 12 * items.length) ∧
    (∀ (items : List (Vec3 × Vec3)) (p : Nat × Nat),
      p ∈ (appendBoxes ⟨[], []⟩ items).idx →
      ∃ i, i < items.length ∧ 8 * i ≤ p.1 ∧ p.1 < 8 * i + 8 ∧
        8 * i ≤ p.2 ∧ p.2 < 8 * i + 8) := by
  refine ⟨rfl, ?_, ?_, ?_, appendBoxes_idx_mem⟩
  · cases haabbs : aabbs with
    | nil => simp [_build_batches, toBatch, appendBoxes]
    | cons item rest =>
      have hne : item :: rest ≠ ([] : List (Nat × (Vec3 × Vec3))) := by simp
      simp only [_build_batches, if_neg hne]
      rw [buildFold_eq]
  · intro items it
    rw [appendBoxes_append, appendBoxes_cons, appendBoxes_nil]
    rfl
  · intro items
    constructor
    · rw [appendBoxes_pos_length]
      simp
    · rw [appendBoxes_idx_length]
      simp

/-- Witness for C8's index-locality clause at a concrete two-box batch: the
pair `(13, 14)` of the second box addresses vertices of box 1 only. -/
theorem C8_witness :
    ∃ i, i < ([(⟨0, 0, 0⟩, ⟨1, 1, 1⟩), (⟨2, 2, 2⟩, ⟨3, 3, 3⟩)] :
        List (Vec3 × Vec3)).length ∧
      8 * i ≤ 13 ∧ 13 < 8 * i + 8 ∧ 8 * i ≤ 14 ∧ 14 < 8 * i + 8 :=
  (C8_build_batches [] none).2.2.2.2
    [(⟨0, 0, 0⟩, ⟨1, 1, 1⟩), (⟨2, 2, 2⟩, ⟨3, 3, 3⟩)] (13, 14) (by decide)

end BBSel
